import Mathlib

/-!
Verification of the anthropic-proxy translation engine against its
natural-language specification.

The development shallowly embeds the pure core of the proxy:
- `clean_schema` (src/transform.rs, `clean_schema`): the Schema Sanitizer;
- `map_stop_reason` (src/transform.rs): the Stop-Reason Mapper;
- `anthropic_to_openai` / `convert_message` (src/transform.rs): the
  Request Translator;
- `openai_to_anthropic` (src/transform.rs): the Response Translator;
- the per-chunk stream reassembly state machine of `create_sse_stream`
  (src/proxy.rs): states, events and transition functions.

JSON values are modelled as an inductive `Json` type whose objects are
ordered association lists with distinct keys (mirroring `serde_json::Value`,
whose maps have unique string keys).
-/

namespace AnthropicProxy

/-- JSON value, as manipulated by the proxy (`serde_json::Value`).  Objects
are association lists; `serde_json` maps have unique keys, and every
operation below treats the list as such a map. -/
inductive Json where
  | null
  | bool (b : Bool)
  | num (n : Int)
  | str (s : String)
  | arr (elems : List Json)
  | obj (fields : List (String × Json))
deriving Repr

/-- Tests whether a JSON value is the string literal `"uri"`, mirroring the
comparison `obj.get("format").and_then(|v| v.as_str()) == Some("uri")` in
`clean_schema` (src/transform.rs lines 204-206) applied to the value found
under the `format` key. -/
def isUriStr : Json → Bool
  | .str s => s == "uri"
  | _ => false

mutual

/-- Embedding of `clean_schema` (src/transform.rs lines 201-221): on an
object, remove a `format` key whose value is `"uri"`, recurse into every
value of the `properties` object, recurse into the `items` value; every
non-object input passes through unchanged. -/
def clean_schema : Json → Json
  | .obj fields => .obj (cleanFields fields)
  | v => v

/-- Per-field action of `clean_schema` on the fields of an object: the
`format: "uri"` binding is dropped, `properties` and `items` bindings are
recursed into, all other bindings are kept unchanged. -/
def cleanFields : List (String × Json) → List (String × Json)
  | [] => []
  | (k, v) :: rest =>
    if k = "format" ∧ isUriStr v then cleanFields rest
    else if k = "properties" then (k, cleanProperties v) :: cleanFields rest
    else if k = "items" then (k, clean_schema v) :: cleanFields rest
    else (k, v) :: cleanFields rest

/-- Action of `clean_schema` on the value found under `properties`
(src/transform.rs lines 209-213): each value of that object is cleaned; a
non-object `properties` value is left untouched (`as_object_mut` fails). -/
def cleanProperties : Json → Json
  | .obj pfields => .obj (cleanPropFields pfields)
  | v => v

/-- Maps `clean_schema` over the values of the `properties` object. -/
def cleanPropFields : List (String × Json) → List (String × Json)
  | [] => []
  | (k, v) :: rest => (k, clean_schema v) :: cleanPropFields rest

end

mutual

/-- Holds when the value carries, at top level or under `properties` values
or under `items` recursively (the positions `clean_schema` reaches), a
`format` key whose value is the string `"uri"`. -/
def hasUriFormat : Json → Bool
  | .obj fields => fieldsHaveUriFormat fields
  | _ => false

/-- Field-list companion of `hasUriFormat`. -/
def fieldsHaveUriFormat : List (String × Json) → Bool
  | [] => false
  | (k, v) :: rest =>
    (k = "format" && isUriStr v)
    || (k = "properties" && propsHaveUriFormat v)
    || (k = "items" && hasUriFormat v)
    || fieldsHaveUriFormat rest

/-- Companion of `hasUriFormat` for the value under a `properties` key. -/
def propsHaveUriFormat : Json → Bool
  | .obj pfields => propFieldsHaveUriFormat pfields
  | _ => false

/-- Field-list companion of `propsHaveUriFormat`. -/
def propFieldsHaveUriFormat : List (String × Json) → Bool
  | [] => false
  | (_, v) :: rest => hasUriFormat v || propFieldsHaveUriFormat rest

end

theorem sizeOf_val_lt_of_mem {fs : List (String × Json)} {k : String} {v : Json}
    (h : (k, v) ∈ fs) : sizeOf v < sizeOf fs := by
  induction fs with
  | nil => cases h
  | cons hd tl ih =>
    rcases List.mem_cons.mp h with h | h
    · subst h
      simp only [List.cons.sizeOf_spec, Prod.mk.sizeOf_spec]
      omega
    · have := ih h
      simp only [List.cons.sizeOf_spec]
      omega

theorem sizeOf_snd_lt_of_mem {fs : List (String × Json)} {kv : String × Json}
    (h : kv ∈ fs) : sizeOf kv.2 < sizeOf fs := by
  obtain ⟨k, v⟩ := kv
  exact sizeOf_val_lt_of_mem h

/-- Structural induction over `Json` that hands the inductive hypothesis to
every value stored in an object's field list. -/
theorem Json.recOnMem {motive : Json → Prop}
    (hnull : motive .null) (hbool : ∀ b, motive (.bool b))
    (hnum : ∀ n, motive (.num n)) (hstr : ∀ s, motive (.str s))
    (harr : ∀ xs, motive (.arr xs))
    (hobj : ∀ fs, (∀ kv ∈ fs, motive kv.2) → motive (.obj fs)) :
    ∀ v, motive v
  | .null => hnull
  | .bool b => hbool b
  | .num n => hnum n
  | .str s => hstr s
  | .arr xs => harr xs
  | .obj fs => hobj fs (fun kv h =>
      Json.recOnMem hnull hbool hnum hstr harr hobj kv.2)
termination_by v => sizeOf v
decreasing_by
  have h1 := sizeOf_snd_lt_of_mem h
  simp only [Json.obj.sizeOf_spec]
  omega

/-- Pointwise facts about the values of a field list that the object-level
lemmas about `clean_schema` consume. -/
def CleanFacts (v : Json) : Prop :=
  (hasUriFormat v = false → clean_schema v = v)
  ∧ (propsHaveUriFormat v = false → cleanProperties v = v)
  ∧ hasUriFormat (clean_schema v) = false
  ∧ propsHaveUriFormat (cleanProperties v) = false

theorem cleanFields_noop (fs : List (String × Json))
    (ih : ∀ kv ∈ fs, CleanFacts kv.2)
    (h : fieldsHaveUriFormat fs = false) : cleanFields fs = fs := by
  induction fs with
  | nil => rfl
  | cons hd tl ihl =>
    obtain ⟨k, v⟩ := hd
    have hv : CleanFacts v := ih (k, v) (List.mem_cons_self _ _)
    have htl : ∀ kv ∈ tl, CleanFacts kv.2 := fun kv hkv => ih kv (List.mem_cons_of_mem _ hkv)
    simp only [fieldsHaveUriFormat, Bool.or_eq_false_iff, Bool.and_eq_false_iff,
      decide_eq_false_iff_not] at h
    obtain ⟨⟨⟨h1, h2⟩, h3⟩, h4⟩ := h
    simp only [cleanFields]
    have hfmt : ¬ (k = "format" ∧ isUriStr v) := by
      intro hc
      rcases h1 with h1 | h1
      · exact h1 hc.1
      · rw [hc.2] at h1
        exact Bool.noConfusion h1
    rw [if_neg hfmt]
    by_cases hkp : k = "properties"
    · have hp : propsHaveUriFormat v = false := by
        rcases h2 with h2 | h2
        · exact absurd hkp h2
        · exact h2
      rw [if_pos hkp, hv.2.1 hp, ihl htl h4]
    · rw [if_neg hkp]
      by_cases hki : k = "items"
      · have hu : hasUriFormat v = false := by
          rcases h3 with h3 | h3
          · exact absurd hki h3
          · exact h3
        rw [if_pos hki, hv.1 hu, ihl htl h4]
      · rw [if_neg hki, ihl htl h4]

theorem cleanPropFields_noop (fs : List (String × Json))
    (ih : ∀ kv ∈ fs, CleanFacts kv.2)
    (h : propFieldsHaveUriFormat fs = false) : cleanPropFields fs = fs := by
  induction fs with
  | nil => rfl
  | cons hd tl ihl =>
    obtain ⟨k, v⟩ := hd
    have hv : CleanFacts v := ih (k, v) (List.mem_cons_self _ _)
    have htl : ∀ kv ∈ tl, CleanFacts kv.2 := fun kv hkv => ih kv (List.mem_cons_of_mem _ hkv)
    simp only [propFieldsHaveUriFormat, Bool.or_eq_false_iff] at h
    simp only [cleanPropFields]
    rw [hv.1 h.1, ihl htl h.2]

theorem cleanFields_no_uri (fs : List (String × Json))
    (ih : ∀ kv ∈ fs, CleanFacts kv.2) :
    fieldsHaveUriFormat (cleanFields fs) = false := by
  induction fs with
  | nil => rfl
  | cons hd tl ihl =>
    obtain ⟨k, v⟩ := hd
    have hv : CleanFacts v := ih (k, v) (List.mem_cons_self _ _)
    have htl : ∀ kv ∈ tl, CleanFacts kv.2 := fun kv hkv => ih kv (List.mem_cons_of_mem _ hkv)
    simp only [cleanFields]
    by_cases hkf : k = "format" ∧ isUriStr v
    · rw [if_pos hkf]
      exact ihl htl
    · rw [if_neg hkf]
      by_cases hkp : k = "properties"
      · subst hkp
        rw [if_pos rfl]
        simp only [fieldsHaveUriFormat, Bool.or_eq_false_iff, Bool.and_eq_false_iff]
        exact ⟨⟨⟨Or.inl (by simp), Or.inr hv.2.2.2⟩, Or.inl (by simp)⟩, ihl htl⟩
      · rw [if_neg hkp]
        by_cases hki : k = "items"
        · subst hki
          rw [if_pos rfl]
          simp only [fieldsHaveUriFormat, Bool.or_eq_false_iff, Bool.and_eq_false_iff]
          exact ⟨⟨⟨Or.inl (by simp), Or.inl (by simp)⟩, Or.inr hv.2.2.1⟩, ihl htl⟩
        · rw [if_neg hki]
          simp only [fieldsHaveUriFormat, Bool.or_eq_false_iff, Bool.and_eq_false_iff]
          refine ⟨⟨⟨?_, Or.inl (by simp [hkp])⟩, Or.inl (by simp [hki])⟩, ihl htl⟩
          by_cases hk2 : k = "format"

          · subst hk2
            right
            by_cases hu : isUriStr v = true
            · exact absurd ⟨rfl, hu⟩ hkf
            · exact Bool.eq_false_iff.mpr hu
          · exact Or.inl (by simp [hk2])

theorem cleanPropFields_no_uri (fs : List (String × Json))
    (ih : ∀ kv ∈ fs, CleanFacts kv.2) :
    propFieldsHaveUriFormat (cleanPropFields fs) = false := by
  induction fs with
  | nil => rfl
  | cons hd tl ihl =>
    obtain ⟨k, v⟩ := hd
    have hv : CleanFacts v := ih (k, v) (List.mem_cons_self _ _)
    have htl : ∀ kv ∈ tl, CleanFacts kv.2 := fun kv hkv => ih kv (List.mem_cons_of_mem _ hkv)
    simp only [cleanPropFields, propFieldsHaveUriFormat, Bool.or_eq_false_iff]
    exact ⟨hv.2.2.1, ihl htl⟩

theorem clean_facts : ∀ v : Json, CleanFacts v := by
  intro v
  induction v using Json.recOnMem with
  | hnull => exact ⟨fun _ => rfl, fun _ => rfl, rfl, rfl⟩
  | hbool b => exact ⟨fun _ => rfl, fun _ => rfl, rfl, rfl⟩
  | hnum n => exact ⟨fun _ => rfl, fun _ => rfl, rfl, rfl⟩
  | hstr s => exact ⟨fun _ => rfl, fun _ => rfl, rfl, rfl⟩
  | harr xs => exact ⟨fun _ => rfl, fun _ => rfl, rfl, rfl⟩
  | hobj fs ih =>
    refine ⟨fun h => ?_, fun h => ?_, ?_, ?_⟩
    · simp only [clean_schema]
      rw [cleanFields_noop fs ih (by simpa [hasUriFormat] using h)]
    · simp only [cleanProperties]
      rw [cleanPropFields_noop fs ih (by simpa [propsHaveUriFormat] using h)]
    · simp only [clean_schema, hasUriFormat]
      exact cleanFields_no_uri fs ih
    · simp only [cleanProperties, propsHaveUriFormat]
      exact cleanPropFields_no_uri fs ih

theorem clean_schema_noop (v : Json) (h : hasUriFormat v = false) :
    clean_schema v = v := (clean_facts v).1 h

theorem clean_schema_no_uri (v : Json) :
    hasUriFormat (clean_schema v) = false := (clean_facts v).2.2.1

theorem clean_schema_idem (v : Json) :
    clean_schema (clean_schema v) = clean_schema v :=
  clean_schema_noop _ (clean_schema_no_uri v)

/-- C9: the Schema Sanitizer is idempotent — applying `clean_schema` twice
yields the same result as applying it once — and it returns unchanged every
value that nowhere (at the top level, under any value of `properties`, or
under `items`, recursively) carries a `format` key whose value is the
string `"uri"`. -/
theorem claim_C9_schema_sanitizer_idempotent (v : Json) :
    clean_schema (clean_schema v) = clean_schema v
    ∧ (hasUriFormat v = false → clean_schema v = v) :=
  ⟨clean_schema_idem v, fun h => clean_schema_noop v h⟩

/-- Concrete JSON-Schema-shaped value with no reachable `format: "uri"`. -/
def c9SampleSchema : Json :=
  .obj [("type", .str "object"),
        ("properties", .obj [("url", .obj [("type", .str "string"),
                                           ("format", .str "date")])]),
        ("items", .obj [("type", .str "string")])]

theorem claim_C9_schema_sanitizer_idempotent_witness :
    hasUriFormat c9SampleSchema = false
    ∧ clean_schema (clean_schema c9SampleSchema) = clean_schema c9SampleSchema
    ∧ clean_schema c9SampleSchema = c9SampleSchema := by
  refine ⟨by decide, (claim_C9_schema_sanitizer_idempotent c9SampleSchema).1,
    (claim_C9_schema_sanitizer_idempotent c9SampleSchema).2 (by decide)⟩

/-! ## Data model

The `models` module of the repository declares the serde types; its file is
not part of the sources at hand, so the record shapes below are read off
from every field access in src/transform.rs and src/proxy.rs together with
the data model of the specification (section 3). -/

/-- Helper: first value bound to `key` in an association-list object,
mirroring `serde_json::Map::get`. -/
def lookupField : List (String × Json) → String → Option Json
  | [], _ => none
  | (k, v) :: rest, key => if k = key then some v else lookupField rest key

/-- Mirror of `Value::as_object`. -/
def Json.asObject : Json → Option (List (String × Json))
  | .obj fields => some fields
  | _ => none

/-- Mirror of `Value::as_str`. -/
def Json.asStr : Json → Option String
  | .str s => some s
  | _ => none

mutual

/-- Total stand-in for `serde_json::to_string` on a `Json` value
(serialisation of a `serde_json::Value` cannot fail); the exact spelling of
the output string is irrelevant to every claim, only that it is a
deterministic function of the value. -/
def jsonSerialize : Json → String
  | .null => "null"
  | .bool true => "true"
  | .bool false => "false"
  | .num n => toString n
  | .str s => "\"" ++ s ++ "\""
  | .arr xs => "[" ++ serializeElems xs ++ "]"
  | .obj fs => "\x7b" ++ serializeFields fs ++ "\x7d"

/-- Companion of `jsonSerialize` for array elements. -/
def serializeElems : List Json → String
  | [] => ""
  | [x] => jsonSerialize x
  | x :: rest => jsonSerialize x ++ "," ++ serializeElems rest

/-- Companion of `jsonSerialize` for object fields. -/
def serializeFields : List (String × Json) → String
  | [] => ""
  | [(k, v)] => "\"" ++ k ++ "\":" ++ jsonSerialize v
  | (k, v) :: rest => "\"" ++ k ++ "\":" ++ jsonSerialize v ++ "," ++ serializeFields rest

end

/-- Block of a structured Anthropic system prompt (`anthropic::SystemMessage`,
carrying the text used at src/transform.rs line 49). -/
structure SystemBlock where
  text : String
deriving Repr

/-- Anthropic system prompt: a single string or a sequence of blocks
(`anthropic::SystemPrompt`, matched at src/transform.rs lines 35-56). -/
inductive SystemPrompt where
  | single (text : String)
  | multiple (blocks : List SystemBlock)
deriving Repr

/-- Image source of an Anthropic image block (media type and base64 data,
src/transform.rs lines 127-135). -/
structure ImageSource where
  media_type : String
  data : String
deriving Repr

/-- Anthropic content block (`anthropic::ContentBlock`, matched at
src/transform.rs lines 122-164). -/
inductive ContentBlock where
  | text (text : String)
  | image (source : ImageSource)
  | tool_use (id : String) (name : String) (input : Json)
  | tool_result (tool_use_id : String) (content : String)
  | thinking
deriving Repr

/-- Anthropic message content: plain string or block sequence
(`anthropic::MessageContent`, matched at src/transform.rs lines 108-118). -/
inductive AMessageContent where
  | text (s : String)
  | blocks (bs : List ContentBlock)
deriving Repr

/-- Anthropic request message (`anthropic::Message`). -/
structure AMessage where
  role : String
  content : AMessageContent
deriving Repr

/-- Anthropic tool definition (name, description, JSON-Schema input shape,
optional type tag; spec section 3, accessed at src/transform.rs lines 66-89). -/
structure ATool where
  name : String
  description : String
  input_schema : Json
  tool_type : Option String
deriving Repr

/-- Anthropic request (`anthropic::AnthropicRequest`; fields as accessed in
src/transform.rs and described in spec section 3; `extra` is the flattened
opaque extension map). -/
structure AnthropicRequest where
  model : String
  messages : List AMessage
  system : Option SystemPrompt
  max_tokens : Nat
  temperature : Option Float
  top_p : Option Float
  stop_sequences : Option (List String)
  stream : Option Bool
  tools : Option (List ATool)
  extra : List (String × Json)

/-- OpenAI function call carried by a tool call (`openai::FunctionCall`). -/
structure FunctionCall where
  name : String
  arguments : String
deriving Repr

/-- OpenAI tool call (`openai::ToolCall`; `call_type` is always
`"function"`). -/
structure ToolCall where
  id : String
  call_type : String
  function : FunctionCall
deriving Repr

/-- OpenAI message content part (`openai::ContentPart`): text or image URL. -/
inductive ContentPart where
  | text (text : String)
  | image_url (url : String)
deriving Repr

/-- OpenAI message content: plain text or a list of parts
(`openai::MessageContent`). -/
inductive OMessageContent where
  | text (s : String)
  | parts (ps : List ContentPart)
deriving Repr

/-- OpenAI chat message (`openai::Message`, built at src/transform.rs
lines 37-53, 110-116, 153-159 and 182-192). -/
structure OMessage where
  role : String
  content : Option OMessageContent
  tool_calls : Option (List ToolCall)
  tool_call_id : Option String
  name : Option String
deriving Repr

/-- OpenAI function-type tool wrapper (`openai::Function`). -/
structure OFunction where
  name : String
  description : String
  parameters : Json
deriving Repr

/-- OpenAI tool (`openai::Tool`; `tool_type` is always `"function"`). -/
structure OTool where
  tool_type : String
  function : OFunction
deriving Repr

/-- OpenAI chat-completions request (`openai::OpenAIRequest`, assembled at
src/transform.rs lines 91-101). -/
structure OpenAIRequest where
  model : String
  messages : List OMessage
  max_tokens : Option Nat
  temperature : Option Float
  top_p : Option Float
  stop : Option (List String)
  stream : Option Bool
  tools : Option (List OTool)
  tool_choice : Option Json

/-- Configuration fields of `Config` (src/config.rs lines 4-13) that the
translation engine reads. -/
structure Config where
  port : Nat
  base_url : String
  api_key : Option String
  reasoning_model : Option String
  completion_model : Option String
  debug : Bool
  verbose : Bool
deriving Repr

/-! ## Request Translator (src/transform.rs) -/

/-- Embedding of the `has_thinking` computation of `anthropic_to_openai`
(src/transform.rs lines 12-17): the extension map carries a `thinking`
object whose `type` field is the string `"enabled"`. -/
def has_thinking (req : AnthropicRequest) : Bool :=
  (((lookupField req.extra "thinking").bind Json.asObject).map
    (fun o => (lookupField o "type").bind Json.asStr == some "enabled")).getD false

/-- Per-block accumulation of `convert_message`'s block loop
(src/transform.rs lines 119-165): pending content parts, pending tool
calls, and the standalone `tool`-role messages emitted along the way, each
in encounter order. -/
def convertBlocks : List ContentBlock → List ContentPart × List ToolCall × List OMessage
  | [] => ([], [], [])
  | b :: rest =>
    let (parts, toolCalls, toolMsgs) := convertBlocks rest
    match b with
    | .text text => (ContentPart.text text :: parts, toolCalls, toolMsgs)
    | .image source =>
        (ContentPart.image_url ("data:" ++ source.media_type ++ ";base64," ++ source.data)
          :: parts, toolCalls, toolMsgs)
    | .tool_use id name input =>
        (parts, { id := id, call_type := "function",
                  function := { name := name, arguments := jsonSerialize input } } :: toolCalls,
         toolMsgs)
    | .tool_result tool_use_id content =>
        (parts, toolCalls,
         { role := "tool", content := some (.text content), tool_calls := none,
           tool_call_id := some tool_use_id, name := none } :: toolMsgs)
    | .thinking => (parts, toolCalls, toolMsgs)

/-- Embedding of `convert_message` (src/transform.rs lines 105-198): a
plain-text message maps to one OpenAI message; a block-sequence message
emits one standalone `tool`-role message per `tool_result` block, in block
order, followed by at most one aggregated message carrying the pending
content parts (collapsed to plain text when it is a single text part) and
pending tool calls. -/
def convert_message (msg : AMessage) : List OMessage :=
  match msg.content with
  | .text text =>
      [{ role := msg.role, content := some (.text text), tool_calls := none,
         tool_call_id := none, name := none }]
  | .blocks blocks =>
      let (parts, toolCalls, toolMsgs) := convertBlocks blocks
      let aggregated : List OMessage :=
        if parts.isEmpty ∧ toolCalls.isEmpty then []
        else
          let content : Option OMessageContent :=
            if parts.isEmpty then none
            else match parts with
              | [ContentPart.text t] => some (.text t)
              | _ => some (.parts parts)
          [{ role := msg.role, content := content,
             tool_calls := if toolCalls.isEmpty then none else some toolCalls,
             tool_call_id := none, name := none }]
      toolMsgs ++ aggregated

/-- Embedding of `anthropic_to_openai` (src/transform.rs lines 7-102).
Serialisation of a `serde_json::Value` is total, so no error case arises. -/
def anthropic_to_openai (req : AnthropicRequest) (config : Config) : OpenAIRequest :=
  let model :=
    if has_thinking req then config.reasoning_model.getD req.model
    else config.completion_model.getD req.model
  let systemMessages : List OMessage :=
    match req.system with
    | none => []
    | some (.single text) =>
        [{ role := "system", content := some (.text text), tool_calls := none,
           tool_call_id := none, name := none }]
    | some (.multiple blocks) =>
        blocks.map (fun b =>
          { role := "system", content := some (.text b.text), tool_calls := none,
            tool_call_id := none, name := none })
  let converted := (req.messages.map convert_message).flatten
  let tools : Option (List OTool) :=
    req.tools.bind (fun ts =>
      let filtered := ts.filter (fun t => !(t.tool_type == some "BatchTool"))
      if filtered.isEmpty then none
      else some (filtered.map (fun t =>
        { tool_type := "function",
          function := { name := t.name, description := t.description,
                        parameters := clean_schema t.input_schema } })))
  { model := model,
    messages := systemMessages ++ converted,
    max_tokens := some req.max_tokens,
    temperature := req.temperature,
    top_p := req.top_p,
    stop := req.stop_sequences,
    stream := req.stream,
    tools := tools,
    tool_choice := none }

/-! ## Response Translator and Stop-Reason Mapper (src/transform.rs) -/

/-- OpenAI response message (`openai::ResponseMessage`: optional text
content, optional tool-call list). -/
structure ResponseMessage where
  content : Option String
  tool_calls : Option (List ToolCall)
deriving Repr

/-- OpenAI response choice (`openai::Choice`). -/
structure Choice where
  message : ResponseMessage
  finish_reason : Option String
deriving Repr

/-- OpenAI usage block (`openai::Usage`). -/
structure OpenAIUsage where
  prompt_tokens : Nat
  completion_tokens : Nat
deriving Repr

/-- OpenAI non-streamed response (`openai::OpenAIResponse`). -/
structure OpenAIResponse where
  id : String
  model : String
  choices : List Choice
  usage : OpenAIUsage
deriving Repr

/-- Anthropic usage block (`anthropic::Usage`). -/
structure Usage where
  input_tokens : Nat
  output_tokens : Nat
deriving Repr, DecidableEq

/-- Anthropic response content block (`anthropic::ResponseContent`); the
type-tag fields are set to the literals the code writes. -/
inductive ResponseContent where
  | text (content_type : String) (text : String)
  | tool_use (content_type : String) (id : String) (name : String) (input : Json)
deriving Repr

/-- Anthropic non-streamed response (`anthropic::AnthropicResponse`). -/
structure AnthropicResponse where
  id : String
  response_type : String
  role : String
  content : List ResponseContent
  model : String
  stop_reason : Option String
  stop_sequence : Option String
  usage : Usage

/-- Translation error (`ProxyError::Transform`; the `error` module is not
among the sources at hand, only this variant is reachable from the pure
translation path). -/
inductive TransformError where
  | transform (msg : String)
deriving Repr, DecidableEq

/-- Embedding of `map_stop_reason` (src/transform.rs lines 286-293). -/
def map_stop_reason (finish_reason : Option String) : Option String :=
  finish_reason.map (fun r =>
    if r = "tool_calls" then "tool_use"
    else if r = "stop" then "end_turn"
    else if r = "length" then "max_tokens"
    else "end_turn")

/-- Embedding of `openai_to_anthropic` (src/transform.rs lines 224-283);
`parse` stands for `serde_json::from_str::<Value>`, whose failure degrades
the tool-call input to the empty object. -/
def openai_to_anthropic (parse : String → Option Json) (resp : OpenAIResponse) :
    Except TransformError AnthropicResponse :=
  match resp.choices.head? with
  | none => .error (.transform "No choices in response")
  | some choice =>
    let textContent : List ResponseContent :=
      match choice.message.content with
      | some text => if text.isEmpty then [] else [.text "text" text]
      | none => []
    let toolContent : List ResponseContent :=
      match choice.message.tool_calls with
      | some tool_calls =>
          tool_calls.map (fun tc =>
            .tool_use "tool_use" tc.id tc.function.name
              ((parse tc.function.arguments).getD (.obj [])))
      | none => []
    let stop_reason := choice.finish_reason.map (fun r =>
      if r = "tool_calls" then "tool_use"
      else if r = "stop" then "end_turn"
      else if r = "length" then "max_tokens"
      else "end_turn")
    .ok { id := resp.id,
          response_type := "message",
          role := "assistant",
          content := textContent ++ toolContent,
          model := resp.model,
          stop_reason := stop_reason,
          stop_sequence := none,
          usage := { input_tokens := resp.usage.prompt_tokens,
                     output_tokens := resp.usage.completion_tokens } }

/-- Stop-reason table exactly as the specification words it (section 4.5):
`tool_calls` to `tool_use`, `stop` to `end_turn`, `length` to `max_tokens`,
any other non-null value to `end_turn`, absent to absent. Written from the
spec to compare the code against it. -/
def specStopReasonTable : Option String → Option String
  | none => none
  | some "tool_calls" => some "tool_use"
  | some "stop" => some "end_turn"
  | some "length" => some "max_tokens"
  | some _ => some "end_turn"

/-- C6: the stop reason computed by the Response Translator on the first
choice equals the one computed by `map_stop_reason`, and `map_stop_reason`
equals the specification's table (`tool_calls` to `tool_use`, `stop` to
`end_turn`, `length` to `max_tokens`, any other non-null value to
`end_turn`, absent to absent). -/
theorem claim_C6_stop_reason_mapper :
    (∀ r : Option String, map_stop_reason r = specStopReasonTable r)
    ∧ (∀ (parse : String → Option Json) (resp : OpenAIResponse) (c : Choice)
        (rest : List Choice), resp.choices = c :: rest →
        (openai_to_anthropic parse resp).toOption.map AnthropicResponse.stop_reason
          = some (map_stop_reason c.finish_reason)) := by
  constructor
  · intro r
    match r with
    | none => rfl
    | some s =>
      by_cases h1 : s = "tool_calls"
      · subst h1; rfl
      · by_cases h2 : s = "stop"
        · subst h2; rfl
        · by_cases h3 : s = "length"
          · subst h3; rfl
          · have hL : map_stop_reason (some s) = some "end_turn" := by
              simp [map_stop_reason, h1, h2, h3]
            have hR : specStopReasonTable (some s) = some "end_turn" := by
              rw [specStopReasonTable.eq_def]
              split
              · simp_all
              · simp_all
              · simp_all
              · simp_all
              · rfl
            rw [hL, hR]
  · intro parse resp c rest h
    have hh : resp.choices.head? = some c := by rw [h]; rfl
    simp [openai_to_anthropic, hh, map_stop_reason, Except.toOption]

/-- Concrete response with one choice finishing on `stop`, for the C6
witness. -/
def c6Resp : OpenAIResponse :=
  { id := "resp-1", model := "gpt-test",
    choices := [{ message := { content := some "hello", tool_calls := none },
                  finish_reason := some "stop" }],
    usage := { prompt_tokens := 1, completion_tokens := 2 } }

theorem claim_C6_stop_reason_mapper_witness :
    map_stop_reason (some "stop") = specStopReasonTable (some "stop")
    ∧ (openai_to_anthropic (fun _ => none) c6Resp).toOption.map
        AnthropicResponse.stop_reason = some (map_stop_reason (some "stop")) :=
  ⟨claim_C6_stop_reason_mapper.1 (some "stop"),
   claim_C6_stop_reason_mapper.2 (fun _ => none) c6Resp
     { message := { content := some "hello", tool_calls := none },
       finish_reason := some "stop" } [] rfl⟩

/-- C7: a request whose extension map carries a `thinking` object with
`type = "enabled"` is translated with the configured reasoning-model
override as its model; a request without such an object is translated with
the completion-model override if set, else its own model. -/
theorem claim_C7_model_selection (req : AnthropicRequest) (config : Config) :
    (∀ rm : String, has_thinking req = true → config.reasoning_model = some rm →
        (anthropic_to_openai req config).model = rm)
    ∧ (has_thinking req = false →
        (anthropic_to_openai req config).model = config.completion_model.getD req.model) := by
  constructor
  · intro rm ht hrm
    simp [anthropic_to_openai, ht, hrm]
  · intro ht
    simp [anthropic_to_openai, ht]

/-- Concrete request with `thinking.type = "enabled"`, for the C7 witness. -/
def c7ThinkingReq : AnthropicRequest :=
  { model := "claude-x", messages := [], system := none, max_tokens := 10,
    temperature := none, top_p := none, stop_sequences := none, stream := none,
    tools := none, extra := [("thinking", .obj [("type", .str "enabled")])] }

/-- Concrete request without a `thinking` object, for the C7 witness. -/
def c7PlainReq : AnthropicRequest :=
  { model := "claude-x", messages := [], system := none, max_tokens := 10,
    temperature := none, top_p := none, stop_sequences := none, stream := none,
    tools := none, extra := [] }

/-- Concrete configuration with both model overrides set, for the C7
witness. -/
def c7Config : Config :=
  { port := 3000, base_url := "http://upstream", api_key := none,
    reasoning_model := some "deepseek-r1", completion_model := some "gpt-4o",
    debug := false, verbose := false }

theorem claim_C7_model_selection_witness :
    has_thinking c7ThinkingReq = true
    ∧ (anthropic_to_openai c7ThinkingReq c7Config).model = "deepseek-r1"
    ∧ has_thinking c7PlainReq = false
    ∧ (anthropic_to_openai c7PlainReq c7Config).model
        = c7Config.completion_model.getD c7PlainReq.model :=
  ⟨rfl,
   (claim_C7_model_selection c7ThinkingReq c7Config).1 "deepseek-r1" rfl rfl,
   rfl,
   (claim_C7_model_selection c7PlainReq c7Config).2 rfl⟩

/-- Standalone `tool`-role message produced by a `tool_result` block
(src/transform.rs lines 147-160); other blocks produce none. -/
def toolResultMsg : ContentBlock → Option OMessage
  | .tool_result tool_use_id content =>
      some { role := "tool", content := some (.text content), tool_calls := none,
             tool_call_id := some tool_use_id, name := none }
  | _ => none

theorem convertBlocks_toolMsgs (bs : List ContentBlock) :
    (convertBlocks bs).2.2 = bs.filterMap toolResultMsg := by
  induction bs with
  | nil => rfl
  | cons b rest ih =>
    cases b <;> simp [convertBlocks, toolResultMsg, ih]

/-- C8: converting a block-sequence message yields one standalone
`tool`-role message per `tool_result` block, in block order, followed by at
most one aggregated message; the aggregated message keeps the source
message's role and carries no tool-call id, so every tool message precedes
it and none is merged into it. -/
theorem claim_C8_tool_results_standalone (role : String) (blocks : List ContentBlock) :
    ∃ agg : List OMessage,
      convert_message { role := role, content := .blocks blocks }
        = blocks.filterMap toolResultMsg ++ agg
      ∧ agg.length ≤ 1
      ∧ ∀ m ∈ agg, m.role = role ∧ m.tool_call_id = none := by
  have h := convertBlocks_toolMsgs blocks
  rcases hc : convertBlocks blocks with ⟨parts, toolCalls, toolMsgs⟩
  rw [hc] at h
  dsimp only at h
  simp only [convert_message, hc]
  rw [← h]
  refine ⟨_, rfl, ?_, ?_⟩
  · by_cases hpe : parts.isEmpty ∧ toolCalls.isEmpty
    · rw [if_pos hpe]
      simp
    · rw [if_neg hpe]
      simp
  · by_cases hpe : parts.isEmpty ∧ toolCalls.isEmpty
    · rw [if_pos hpe]
      simp
    · rw [if_neg hpe]
      intro m hm
      simp only [List.mem_singleton] at hm
      subst hm
      exact ⟨rfl, rfl⟩

/-! ## Stream Reassembler (src/proxy.rs, `create_sse_stream`)

The reassembler is embedded as a pure state machine.  The SSE framing layer
of `create_sse_stream` (byte buffering on `\n\n`, the `data: ` prefix, JSON
parsing of each payload) is abstracted: every `Ok` item of the upstream
byte stream contributes the ordered list of complete `data: ` payloads it
completes, each payload being either the literal `[DONE]` sentinel, a
successfully parsed `StreamChunk`, or a malformed payload (skipped by the
code at src/proxy.rs line 182, where only an `Ok` parse is processed); an
`Err` item carries the transport error message. -/

/-- Incremental function fragment of a streamed tool call
(`openai::ToolCallFunctionDelta`: optional name, optional argument
fragment). -/
structure ToolCallFunctionDelta where
  name : Option String
  arguments : Option String
deriving Repr, DecidableEq

/-- Incremental tool-call fragment of a stream chunk
(`openai::ToolCallDelta`: optional id, optional function fragment). -/
structure ToolCallDelta where
  id : Option String
  function : Option ToolCallFunctionDelta
deriving Repr, DecidableEq

/-- Incremental delta of a stream chunk choice (`openai::Delta`: optional
reasoning fragment, optional content fragment, optional tool-call
fragments). -/
structure Delta where
  reasoning : Option String
  content : Option String
  tool_calls : Option (List ToolCallDelta)
deriving Repr, DecidableEq

/-- Choice of a stream chunk (`openai::StreamChoice`). -/
structure StreamChoice where
  delta : Delta
  finish_reason : Option String
deriving Repr, DecidableEq

/-- Usage carried by a stream chunk; only `completion_tokens` is read
(src/proxy.rs line 365). -/
structure StreamUsage where
  completion_tokens : Nat
deriving Repr, DecidableEq

/-- Parsed stream chunk (`openai::StreamChunk`: id, model, choices,
optional usage; spec section 3). -/
structure StreamChunk where
  id : String
  model : String
  choices : List StreamChoice
  usage : Option StreamUsage
deriving Repr, DecidableEq

/-- Mutable state of `create_sse_stream` (src/proxy.rs lines 146-154),
minus the byte buffer handled by the framing abstraction. -/
structure StreamState where
  message_id : Option String
  current_model : Option String
  content_index : Nat
  tool_call_id : Option String
  tool_call_name : Option String
  tool_call_args : String
  has_sent_message_start : Bool
  current_block_type : Option String
deriving Repr, DecidableEq

/-- Initial reassembler state (src/proxy.rs lines 146-154). -/
def initialState : StreamState :=
  { message_id := none, current_model := none, content_index := 0,
    tool_call_id := none, tool_call_name := none, tool_call_args := "",
    has_sent_message_start := false, current_block_type := none }

/-- Payload of a `content_block_start` event (the `content_block` object). -/
inductive BlockKind where
  | thinking
  | text
  | tool_use (id : String) (name : String)
deriving Repr, DecidableEq

/-- Payload of a `content_block_delta` event (the `delta` object). -/
inductive DeltaKind where
  | thinking_delta (s : String)
  | text_delta (s : String)
  | input_json_delta (pjson : String)
deriving Repr, DecidableEq

/-- Anthropic stream event emitted by the reassembler
(`anthropic::StreamEvent` plus the raw `json!` events of src/proxy.rs);
`message_start` carries the id and model (its usage is always zero),
`message_delta` carries the mapped stop reason and the optional
completion-token count, `error_event` carries the error message. -/
inductive StreamEvent where
  | message_start (id : String) (model : String)
  | content_block_start (index : Nat) (block : BlockKind)
  | content_block_delta (index : Nat) (delta : DeltaKind)
  | content_block_stop (index : Nat)
  | message_delta (stop_reason : Option String) (output_tokens : Option Nat)
  | message_stop
  | error_event (message : String)
deriving Repr, DecidableEq

/-- Embedding of the `message_start` emission (src/proxy.rs lines
191-208): emitted once, with the recorded id and model (empty string when
unset, after `unwrap_or_default`). -/
def processMessageStart (s : StreamState) : List StreamEvent × StreamState :=
  if s.has_sent_message_start then ([], s)
  else ([.message_start (s.message_id.getD "") (s.current_model.getD "")],
        { s with has_sent_message_start := true })

/-- Embedding of the reasoning-fragment handling (src/proxy.rs lines
210-237): when no block is open, a `thinking` block is started at the
current index; in every case a `thinking_delta` is emitted at the current
index. -/
def processReasoning (s : StreamState) : Option String → List StreamEvent × StreamState
  | none => ([], s)
  | some reasoning =>
    if s.current_block_type.isNone then
      ([.content_block_start s.content_index .thinking,
        .content_block_delta s.content_index (.thinking_delta reasoning)],
       { s with current_block_type := some "thinking" })
    else
      ([.content_block_delta s.content_index (.thinking_delta reasoning)], s)

/-- Embedding of the text-fragment handling (src/proxy.rs lines 239-281):
an empty fragment is ignored; if the open block is not a text block, any
open block is stopped (bumping the index) and a text block is started; a
`text_delta` is then emitted at the current index. -/
def processContent (s : StreamState) : Option String → List StreamEvent × StreamState
  | none => ([], s)
  | some content =>
    if content.isEmpty then ([], s)
    else if s.current_block_type == some "text" then
      ([.content_block_delta s.content_index (.text_delta content)], s)
    else
      let (stopEvents, s1) :=
        if s.current_block_type.isSome then
          ([StreamEvent.content_block_stop s.content_index],
           { s with content_index := s.content_index + 1 })
        else ([], s)
      (stopEvents ++
        [.content_block_start s1.content_index .text,
         .content_block_delta s1.content_index (.text_delta content)],
       { s1 with current_block_type := some "text" })

/-- Embedding of the handling of one tool-call fragment (src/proxy.rs
lines 285-340): an id closes any open block (bumping the index) and resets
the tool-call state; a function name starts a `tool_use` block at the
current index; an argument fragment is appended to the buffer and emitted
as an `input_json_delta`. -/
def processToolCallFragment (s : StreamState) (tc : ToolCallDelta) :
    List StreamEvent × StreamState :=
  let (idEvents, s1) :=
    match tc.id with
    | some id =>
      let (stopEvents, sA) :=
        if s.current_block_type.isSome then
          ([StreamEvent.content_block_stop s.content_index],
           { s with content_index := s.content_index + 1 })
        else ([], s)
      (stopEvents, { sA with tool_call_id := some id, tool_call_args := "" })
    | none => ([], s)
  match tc.function with
  | none => (idEvents, s1)
  | some fn =>
    let (nameEvents, s2) :=
      match fn.name with
      | some name =>
        ([StreamEvent.content_block_start s1.content_index
            (.tool_use (s1.tool_call_id.getD "") name)],
         { s1 with tool_call_name := some name, current_block_type := some "tool_use" })
      | none => ([], s1)
    let (argEvents, s3) :=
      match fn.arguments with
      | some args =>
        ([StreamEvent.content_block_delta s2.content_index (.input_json_delta args)],
         { s2 with tool_call_args := s2.tool_call_args ++ args })
      | none => ([], s2)
    (idEvents ++ nameEvents ++ argEvents, s3)

/-- Folds `processToolCallFragment` over the fragments of a delta, in
array order (src/proxy.rs lines 284-341). -/
def processToolCalls (s : StreamState) : Option (List ToolCallDelta) →
    List StreamEvent × StreamState
  | none => ([], s)
  | some tcs =>
    tcs.foldl (fun acc tc =>
      let (evs, s') := processToolCallFragment acc.2 tc
      (acc.1 ++ evs, s')) (([] : List StreamEvent), s)

/-- Embedding of the finish-reason handling (src/proxy.rs lines 344-371):
any open block is stopped (without bumping the index or clearing the
open-block tag) and a `message_delta` with the mapped stop reason and the
chunk usage's completion-token count is emitted. -/
def processFinish (s : StreamState) (usage : Option StreamUsage) :
    Option String → List StreamEvent × StreamState
  | none => ([], s)
  | some finish_reason =>
    ((if s.current_block_type.isSome then
        [StreamEvent.content_block_stop s.content_index] else [])
      ++ [.message_delta (map_stop_reason (some finish_reason))
            (usage.map StreamUsage.completion_tokens)], s)

/-- Recording of the chunk id and model into unset state fields
(src/proxy.rs lines 183-188). -/
def adminUpdate (s : StreamState) (c : StreamChunk) : StreamState :=
  { s with
    message_id := if s.message_id.isNone then some c.id else s.message_id,
    current_model := if s.current_model.isNone then some c.model else s.current_model }

/-- Embedding of the per-chunk processing (src/proxy.rs lines 182-372):
record id and model if unset; then, only when the chunk has a first
choice, run the message-start, reasoning, content, tool-call and
finish-reason steps in this order. -/
def processChunk (s : StreamState) (c : StreamChunk) : List StreamEvent × StreamState :=
  let s0 := adminUpdate s c
  match c.choices.head? with
  | none => ([], s0)
  | some choice =>
    let r1 := processMessageStart s0
    let r2 := processReasoning r1.2 choice.delta.reasoning
    let r3 := processContent r2.2 choice.delta.content
    let r4 := processToolCalls r3.2 choice.delta.tool_calls
    let r5 := processFinish r4.2 c.usage choice.finish_reason
    (r1.1 ++ r2.1 ++ r3.1 ++ r4.1 ++ r5.1, r5.2)

/-- Complete `data: ` payload of the upstream SSE stream: the `[DONE]`
sentinel, a chunk that parsed as `openai::StreamChunk`, or a payload that
failed to parse (skipped by src/proxy.rs line 182). -/
inductive Payload where
  | done
  | chunk (c : StreamChunk)
  | malformed
deriving Repr, DecidableEq

/-- Processing of one payload (src/proxy.rs lines 174-373): `[DONE]`
emits `message_stop` and continues, a parsed chunk runs `processChunk`, a
malformed payload is skipped. -/
def processPayload (s : StreamState) : Payload → List StreamEvent × StreamState
  | .done => ([StreamEvent.message_stop], s)
  | .chunk c => processChunk s c
  | .malformed => ([], s)

/-- Processing of a list of payloads, threading the state. -/
def runPayloads (s : StreamState) : List Payload → List StreamEvent × StreamState
  | [] => ([], s)
  | p :: rest =>
    let (evs, s1) := processPayload s p
    let (evs2, s2) := runPayloads s1 rest
    (evs ++ evs2, s2)

/-- One item of the upstream byte stream: an `Ok` item, abstracted as the
payloads it completes, or a read error with its message. -/
inductive StreamItem where
  | bytes (payloads : List Payload)
  | readError (msg : String)
deriving Repr, DecidableEq

/-- Embedding of the outer loop of `create_sse_stream` (src/proxy.rs lines
158-393): `Ok` items are processed payload by payload; an `Err` item emits
exactly one `error` event and breaks the loop. -/
def runItems (s : StreamState) : List StreamItem → List StreamEvent
  | [] => []
  | .bytes ps :: rest =>
    let (evs, s1) := runPayloads s ps
    evs ++ runItems s1 rest
  | .readError e :: _ => [.error_event ("Stream error: " ++ e)]

/-- Events produced by `create_sse_stream` on a whole upstream stream,
from the initial state. -/
def create_sse_stream (input : List StreamItem) : List StreamEvent :=
  runItems initialState input

/-- First chunk of the C1 stream: delta content `"Hi"`, no finish reason. -/
def c1Chunk1 (i m : String) : StreamChunk :=
  { id := i, model := m,
    choices := [{ delta := { reasoning := none, content := some "Hi",
                             tool_calls := none },
                  finish_reason := none }],
    usage := none }

/-- Second chunk of the C1 stream: delta content `" there"`, finish reason
`stop`. -/
def c1Chunk2 (i m : String) : StreamChunk :=
  { id := i, model := m,
    choices := [{ delta := { reasoning := none, content := some " there",
                             tool_calls := none },
                  finish_reason := some "stop" }],
    usage := none }

/-- C1: the chunk stream carrying text `"Hi"`, then text `" there"` with
finish reason `stop`, then the `[DONE]` sentinel produces exactly seven
events: `message_start`, `content_block_start` (index 0, text),
`content_block_delta("Hi")`, `content_block_delta(" there")`,
`content_block_stop` (index 0), `message_delta` (stop reason `end_turn`),
`message_stop`, in this order; every emitted index is 0. -/
theorem claim_C1_two_text_chunks (i m i2 m2 : String) :
    create_sse_stream
      [.bytes [.chunk (c1Chunk1 i m)],
       .bytes [.chunk (c1Chunk2 i2 m2)],
       .bytes [.done]]
    = [.message_start i m,
       .content_block_start 0 .text,
       .content_block_delta 0 (.text_delta "Hi"),
       .content_block_delta 0 (.text_delta " there"),
       .content_block_stop 0,
       .message_delta (some "end_turn") none,
       .message_stop] := rfl

/-- Events and final state of a run over a sequence of `Ok` items. -/
def runBytesPrefix (s : StreamState) : List (List Payload) →
    List StreamEvent × StreamState
  | [] => ([], s)
  | ps :: rest =>
    let (evs, s1) := runPayloads s ps
    let (evs2, s2) := runBytesPrefix s1 rest
    (evs ++ evs2, s2)

/-- C5: an `Err` item of the upstream byte stream, arriving after any
prefix of `Ok` items, makes the reassembler emit the events of the prefix
followed by exactly one `error` event whose message describes the failure;
nothing after the failing item is processed and no further event (in
particular no `content_block_stop` for a still-open block) is emitted. -/
theorem claim_C5_transport_failure (s : StreamState) (pre : List (List Payload))
    (e : String) (rest : List StreamItem) :
    runItems s (pre.map StreamItem.bytes ++ StreamItem.readError e :: rest)
      = (runBytesPrefix s pre).1 ++ [.error_event ("Stream error: " ++ e)] := by
  induction pre generalizing s with
  | nil => rfl
  | cons ps pre ih =>
    simp only [List.map_cons, List.cons_append, runItems, runBytesPrefix,
      List.append_eq]
    rw [ih (runPayloads s ps).2]
    simp

theorem claim_C5_transport_failure_witness :
    runItems initialState
        ([[Payload.done]].map StreamItem.bytes
          ++ StreamItem.readError "connection reset" :: [StreamItem.bytes [Payload.done]])
      = (runBytesPrefix initialState [[Payload.done]]).1
        ++ [.error_event ("Stream error: " ++ "connection reset")] :=
  claim_C5_transport_failure initialState [[Payload.done]] "connection reset"
    [StreamItem.bytes [Payload.done]]

/-- C10: a parsed chunk with an empty choices list emits no event at all,
but still records the chunk's id and model into any unset state fields, so
that a later chunk carrying a choice emits `message_start` with the
earlier chunk's id and model. -/
theorem claim_C10_empty_choices (s : StreamState) (c c2 : StreamChunk)
    (hc : c.choices = []) :
    processChunk s c
      = ([], { s with
          message_id := if s.message_id.isNone then some c.id else s.message_id,
          current_model := if s.current_model.isNone then some c.model
                           else s.current_model })
    ∧ (s.message_id = none → s.current_model = none →
       s.has_sent_message_start = false → c2.choices ≠ [] →
       ((processChunk (processChunk s c).2 c2).1.head?
          = some (.message_start c.id c.model))) := by
  constructor
  · simp [processChunk, adminUpdate, hc]
  · intro hid hmodel hstart hc2
    have h1 : (processChunk s c).2
        = { s with message_id := some c.id, current_model := some c.model } := by
      simp [processChunk, adminUpdate, hc, hid, hmodel]
    rw [h1]
    match h2 : c2.choices with
    | [] => exact absurd h2 hc2
    | ch :: t =>
      have hh : c2.choices.head? = some ch := by rw [h2]; rfl
      simp [processChunk, adminUpdate, hh, processMessageStart, hstart]

theorem claim_C10_empty_choices_witness :
    processChunk initialState { id := "id0", model := "m0", choices := [], usage := none }
      = ([], { initialState with message_id := some "id0", current_model := some "m0" })
    ∧ ((processChunk
          (processChunk initialState
            { id := "id0", model := "m0", choices := [], usage := none }).2
          { id := "id1", model := "m1",
            choices := [{ delta := { reasoning := none, content := none,
                                     tool_calls := none },
                          finish_reason := none }],
            usage := none }).1.head?
        = some (.message_start "id0" "m0")) := by
  have h := claim_C10_empty_choices initialState
    { id := "id0", model := "m0", choices := [], usage := none }
    { id := "id1", model := "m1",
      choices := [{ delta := { reasoning := none, content := none,
                               tool_calls := none },
                    finish_reason := none }],
      usage := none } rfl
  exact ⟨h.1, h.2 rfl rfl rfl (by decide)⟩

/-- Claim C4 as stated: upon the `[DONE]` payload the reassembler emits
`message_stop` and terminates normally, so whatever payloads follow are
not processed and contribute no events. -/
def ClaimC4 : Prop :=
  ∀ (s : StreamState) (qs : List Payload),
    (runPayloads s (Payload.done :: qs)).1 = [StreamEvent.message_stop]

theorem claim_C4_counterexample : ¬ ClaimC4 :=
  fun h => absurd (h initialState [Payload.chunk (c1Chunk1 "i" "m")]) (by decide)

/-- C4 (amended): upon the `[DONE]` payload the reassembler emits
`message_stop`, not gated on any other state — in particular even when no
block was ever opened and `message_start` was never sent — and leaves the
state unchanged; processing then continues with the following payloads
(the code `continue`s instead of terminating, src/proxy.rs line 179), so
events of later payloads are still emitted. -/
theorem claim_C4_done_sentinel (s : StreamState) (qs : List Payload) :
    processPayload s Payload.done = ([StreamEvent.message_stop], s)
    ∧ (runPayloads s (Payload.done :: qs)).1
        = StreamEvent.message_stop :: (runPayloads s qs).1 :=
  ⟨rfl, by simp [runPayloads, processPayload]⟩

/-- Claim C3 as stated: whenever a delta carries a reasoning fragment and
the open block is not a thinking block, the reassembler emits
`content_block_start` (current index, thinking) and sets the open block to
thinking with no index bump, then emits the `thinking_delta`. -/
def ClaimC3 : Prop :=
  ∀ (s : StreamState) (r : String),
    s.current_block_type ≠ some "thinking" →
    processReasoning s (some r)
      = ([.content_block_start s.content_index .thinking,
          .content_block_delta s.content_index (.thinking_delta r)],
         { s with current_block_type := some "thinking" })

theorem claim_C3_counterexample : ¬ ClaimC3 := by
  intro h
  have hs := h (processChunk initialState (c1Chunk1 "i" "m")).2 "think" (by decide)
  exact absurd hs (by decide)

/-- C3 (amended): the guard in the code is `current_block_type.is_none()`
(src/proxy.rs line 211), not a comparison against thinking: when NO block
is open, the reassembler emits `content_block_start` (current index, type
thinking) and sets the open block to thinking with no index bump; when any
block is open — also a non-thinking text or tool_use block — no start is
emitted and the state is unchanged; in every case it then emits
`content_block_delta` (current index, `thinking_delta`, the fragment). -/
theorem claim_C3_reasoning_fragment (s : StreamState) (r : String) :
    (s.current_block_type = none →
      processReasoning s (some r)
        = ([.content_block_start s.content_index .thinking,
            .content_block_delta s.content_index (.thinking_delta r)],
           { s with current_block_type := some "thinking" }))
    ∧ (s.current_block_type ≠ none →
      processReasoning s (some r)
        = ([.content_block_delta s.content_index (.thinking_delta r)], s)) := by
  constructor
  · intro h
    simp [processReasoning, h]
  · intro h
    rcases hc : s.current_block_type with _ | b
    · exact absurd hc h
    · simp [processReasoning, hc]

theorem claim_C3_reasoning_fragment_witness :
    (initialState.current_block_type = none
      ∧ processReasoning initialState (some "hm")
          = ([.content_block_start 0 .thinking,
              .content_block_delta 0 (.thinking_delta "hm")],
             { initialState with current_block_type := some "thinking" }))
    ∧ ((processChunk initialState (c1Chunk1 "i" "m")).2.current_block_type ≠ none
      ∧ processReasoning (processChunk initialState (c1Chunk1 "i" "m")).2 (some "hm")
          = ([.content_block_delta 0 (.thinking_delta "hm")],
             (processChunk initialState (c1Chunk1 "i" "m")).2)) :=
  ⟨⟨rfl, (claim_C3_reasoning_fragment initialState "hm").1 rfl⟩,
   ⟨by decide,
    (claim_C3_reasoning_fragment (processChunk initialState (c1Chunk1 "i" "m")).2
      "hm").2 (by decide)⟩⟩

/-! ## The C2 ordering invariant

`ClaimC2` formalises the spec's ordering invariant over an emitted event
list, position by position.  To settle it, the block events of a run are
checked against a two-field automaton (`blockStep`): its state is the next
block index together with whether a block is currently open; a run of the
reassembler over well-formed input is then shown to be accepted by the
automaton, and acceptance implies every conjunct of the invariant. -/

/-- Classifier used by the open-block count: `content_block_start`. -/
def isStartEv : StreamEvent → Bool
  | .content_block_start _ _ => true
  | _ => false

/-- Classifier used by the open-block count: `content_block_stop`. -/
def isStopEv : StreamEvent → Bool
  | .content_block_stop _ => true
  | _ => false

/-- Claim C2 as stated, over an emitted event list: for every index N, at
most one `content_block_start` and at most one `content_block_stop` carry
N (indices never reused); the start for N strictly precedes every delta
for N; every delta for N strictly precedes the stop for N; the start for N
strictly precedes the stop for N; start indices strictly increase with
position; below every started index every smaller index is also started
(indices start at 0 and are never skipped); and in every prefix the number
of starts exceeds the number of stops by at most one while never falling
below it (at most one block open at any instant). -/
def ClaimC2 (evs : List StreamEvent) : Prop :=
  (∀ (p q N : Nat) (K K' : BlockKind), evs[p]? = some (StreamEvent.content_block_start N K) →
      evs[q]? = some (StreamEvent.content_block_start N K') → p = q)
  ∧ (∀ (p q N : Nat), evs[p]? = some (StreamEvent.content_block_stop N) →
      evs[q]? = some (StreamEvent.content_block_stop N) → p = q)
  ∧ (∀ (q N : Nat) (D : DeltaKind), evs[q]? = some (StreamEvent.content_block_delta N D) →
      ∃ (p : Nat) (K : BlockKind), p < q ∧ evs[p]? = some (StreamEvent.content_block_start N K))
  ∧ (∀ (p q N : Nat) (D : DeltaKind), evs[p]? = some (StreamEvent.content_block_delta N D) →
      evs[q]? = some (StreamEvent.content_block_stop N) → p < q)
  ∧ (∀ (p q N : Nat) (K : BlockKind), evs[p]? = some (StreamEvent.content_block_start N K) →
      evs[q]? = some (StreamEvent.content_block_stop N) → p < q)
  ∧ (∀ (p q N M : Nat) (K K' : BlockKind), evs[p]? = some (StreamEvent.content_block_start N K) →
      evs[q]? = some (StreamEvent.content_block_start M K') → p < q → N < M)
  ∧ (∀ (p N : Nat) (K : BlockKind), evs[p]? = some (StreamEvent.content_block_start N K) →
      ∀ M, M < N → ∃ (q : Nat) (K' : BlockKind), evs[q]? = some (StreamEvent.content_block_start M K'))
  ∧ (∀ k, (evs.take k).countP isStartEv ≤ (evs.take k).countP isStopEv + 1
        ∧ (evs.take k).countP isStopEv ≤ (evs.take k).countP isStartEv)

/-- Block-ordering automaton: the state is the index of the block being
(or about to be) emitted and whether it is currently open.  Non-block
events are ignored; a start is legal only on the closed state at the
current index, a delta only on the open state at the current index, a stop
closes the open block and moves to the next index. -/
def blockStep : Nat × Bool → StreamEvent → Option (Nat × Bool)
  | (i, false), .content_block_start j _ => if j = i then some (i, true) else none
  | (_, false), .content_block_delta _ _ => none
  | (_, false), .content_block_stop _ => none
  | (_, true), .content_block_start _ _ => none
  | (i, true), .content_block_delta j _ => if j = i then some (i, true) else none
  | (i, true), .content_block_stop j => if j = i then some (i + 1, false) else none
  | st, .message_start _ _ => some st
  | st, .message_delta _ _ => some st
  | st, .message_stop => some st
  | st, .error_event _ => some st

/-- Run of the block-ordering automaton over an event list. -/
def blockRun : Nat × Bool → List StreamEvent → Option (Nat × Bool)
  | st, [] => some st
  | st, e :: rest =>
    match blockStep st e with
    | some st' => blockRun st' rest
    | none => none

theorem blockRun_cons_elim {st : Nat × Bool} {e : StreamEvent}
    {evs : List StreamEvent} {st' : Nat × Bool}
    (h : blockRun st (e :: evs) = some st') :
    ∃ st'', blockStep st e = some st'' ∧ blockRun st'' evs = some st' := by
  unfold blockRun at h
  cases hs : blockStep st e with
  | none => rw [hs] at h; exact absurd h (by simp)
  | some st'' => rw [hs] at h; exact ⟨st'', rfl, h⟩

theorem blockRun_append (l1 l2 : List StreamEvent) (st : Nat × Bool) :
    blockRun st (l1 ++ l2) = (blockRun st l1).bind (fun st' => blockRun st' l2) := by
  induction l1 generalizing st with
  | nil => simp [blockRun]
  | cons e l1 ih =>
    simp only [List.cons_append, blockRun]
    cases blockStep st e with
    | none => simp
    | some st'' => simp [ih]

theorem blockStep_start {i : Nat} {b : Bool} {j : Nat} {K : BlockKind}
    {st' : Nat × Bool} (h : blockStep (i, b) (.content_block_start j K) = some st') :
    b = false ∧ j = i ∧ st' = (i, true) := by
  cases b
  · by_cases hj : j = i
    · subst hj
      simp [blockStep] at h
      exact ⟨rfl, rfl, h.symm⟩
    · simp [blockStep, hj] at h
  · simp [blockStep] at h

theorem blockStep_delta {i : Nat} {b : Bool} {j : Nat} {D : DeltaKind}
    {st' : Nat × Bool} (h : blockStep (i, b) (.content_block_delta j D) = some st') :
    b = true ∧ j = i ∧ st' = (i, true) := by
  cases b
  · simp [blockStep] at h
  · by_cases hj : j = i
    · subst hj
      simp [blockStep] at h
      exact ⟨rfl, rfl, h.symm⟩
    · simp [blockStep, hj] at h

theorem blockStep_stop {i : Nat} {b : Bool} {j : Nat}
    {st' : Nat × Bool} (h : blockStep (i, b) (.content_block_stop j) = some st') :
    b = true ∧ j = i ∧ st' = (i + 1, false) := by
  cases b
  · simp [blockStep] at h
  · by_cases hj : j = i
    · subst hj
      simp [blockStep] at h
      exact ⟨rfl, rfl, h.symm⟩
    · simp [blockStep, hj] at h

theorem blockStep_nonblock {st st' : Nat × Bool} {e : StreamEvent}
    (h : blockStep st e = some st')
    (he : isStartEv e = false) (hd : (match e with
      | .content_block_delta _ _ => true | _ => false) = false)
    (hs : isStopEv e = false) : st' = st := by
  obtain ⟨i, b⟩ := st
  cases e <;> simp [isStartEv, isStopEv] at he hd hs <;> cases b <;>
    simp [blockStep] at h <;> simp [h.symm]

theorem blockRun_start_ge :
    ∀ (evs : List StreamEvent) (i : Nat) (b : Bool) (st' : Nat × Bool),
    blockRun (i, b) evs = some st' →
    ∀ (p N : Nat) (K : BlockKind),
    evs[p]? = some (StreamEvent.content_block_start N K) →
    i + (if b then 1 else 0) ≤ N := by
  intro evs
  induction evs with
  | nil =>
    intro i b st' h p N K hp
    simp at hp
  | cons e rest ih =>
    intro i b st' h p N K hp
    obtain ⟨st'', hstep, hrun⟩ := blockRun_cons_elim h
    cases p with
    | zero =>
      rw [List.getElem?_cons_zero] at hp
      injection hp with hp
      subst hp
      obtain ⟨hb, hj, hst⟩ := blockStep_start hstep
      subst hb
      subst hj
      simp
    | succ p' =>
      rw [List.getElem?_cons_succ] at hp
      cases e with
      | content_block_start j K0 =>
        obtain ⟨hb, hj, hst⟩ := blockStep_start hstep
        subst hb hst
        have := ih i true st' hrun p' N K hp
        simp at this ⊢
        omega
      | content_block_delta j D =>
        obtain ⟨hb, hj, hst⟩ := blockStep_delta hstep
        subst hb hst
        exact ih i true st' hrun p' N K hp
      | content_block_stop j =>
        obtain ⟨hb, hj, hst⟩ := blockStep_stop hstep
        subst hb hst
        have := ih (i + 1) false st' hrun p' N K hp
        simp at this ⊢
        omega
      | message_start id model =>
        have hst : st'' = (i, b) := blockStep_nonblock hstep rfl rfl rfl
        subst hst
        exact ih i b st' hrun p' N K hp
      | message_delta sr u =>
        have hst : st'' = (i, b) := blockStep_nonblock hstep rfl rfl rfl
        subst hst
        exact ih i b st' hrun p' N K hp
      | message_stop =>
        have hst : st'' = (i, b) := blockStep_nonblock hstep rfl rfl rfl
        subst hst
        exact ih i b st' hrun p' N K hp
      | error_event msg =>
        have hst : st'' = (i, b) := blockStep_nonblock hstep rfl rfl rfl
        subst hst
        exact ih i b st' hrun p' N K hp

theorem blockRun_delta_ge :
    ∀ (evs : List StreamEvent) (i : Nat) (b : Bool) (st' : Nat × Bool),
    blockRun (i, b) evs = some st' →
    ∀ (p N : Nat) (D : DeltaKind),
    evs[p]? = some (StreamEvent.content_block_delta N D) →
    i ≤ N := by
  intro evs
  induction evs with
  | nil =>
    intro i b st' h p N D hp
    simp at hp
  | cons e rest ih =>
    intro i b st' h p N D hp
    obtain ⟨st'', hstep, hrun⟩ := blockRun_cons_elim h
    cases p with
    | zero =>
      rw [List.getElem?_cons_zero] at hp
      injection hp with hp
      subst hp
      obtain ⟨hb, hj, hst⟩ := blockStep_delta hstep
      subst hj
      exact Nat.le_refl _
    | succ p' =>
      rw [List.getElem?_cons_succ] at hp
      cases e with
      | content_block_start j K0 =>
        obtain ⟨hb, hj, hst⟩ := blockStep_start hstep
        subst hst
        exact ih i true st' hrun p' N D hp
      | content_block_delta j D0 =>
        obtain ⟨hb, hj, hst⟩ := blockStep_delta hstep
        subst hst
        exact ih i true st' hrun p' N D hp
      | content_block_stop j =>
        obtain ⟨hb, hj, hst⟩ := blockStep_stop hstep
        subst hst
        have := ih (i + 1) false st' hrun p' N D hp
        omega
      | message_start id model =>
        have hst : st'' = (i, b) := blockStep_nonblock hstep rfl rfl rfl
        subst hst
        exact ih i b st' hrun p' N D hp
      | message_delta sr u =>
        have hst : st'' = (i, b) := blockStep_nonblock hstep rfl rfl rfl
        subst hst
        exact ih i b st' hrun p' N D hp
      | message_stop =>
        have hst : st'' = (i, b) := blockStep_nonblock hstep rfl rfl rfl
        subst hst
        exact ih i b st' hrun p' N D hp
      | error_event msg =>
        have hst : st'' = (i, b) := blockStep_nonblock hstep rfl rfl rfl
        subst hst
        exact ih i b st' hrun p' N D hp

theorem blockRun_stop_ge :
    ∀ (evs : List StreamEvent) (i : Nat) (b : Bool) (st' : Nat × Bool),
    blockRun (i, b) evs = some st' →
    ∀ (p N : Nat),
    evs[p]? = some (StreamEvent.content_block_stop N) →
    i ≤ N := by
  intro evs
  induction evs with
  | nil =>
    intro i b st' h p N hp
    simp at hp
  | cons e rest ih =>
    intro i b st' h p N hp
    obtain ⟨st'', hstep, hrun⟩ := blockRun_cons_elim h
    cases p with
    | zero =>
      rw [List.getElem?_cons_zero] at hp
      injection hp with hp
      subst hp
      obtain ⟨hb, hj, hst⟩ := blockStep_stop hstep
      subst hj
      exact Nat.le_refl _
    | succ p' =>
      rw [List.getElem?_cons_succ] at hp
      cases e with
      | content_block_start j K0 =>
        obtain ⟨hb, hj, hst⟩ := blockStep_start hstep
        subst hst
        exact ih i true st' hrun p' N hp
      | content_block_delta j D0 =>
        obtain ⟨hb, hj, hst⟩ := blockStep_delta hstep
        subst hst
        exact ih i true st' hrun p' N hp
      | content_block_stop j =>
        obtain ⟨hb, hj, hst⟩ := blockStep_stop hstep
        subst hst
        have := ih (i + 1) false st' hrun p' N hp
        omega
      | message_start id model =>
        have hst : st'' = (i, b) := blockStep_nonblock hstep rfl rfl rfl
        subst hst
        exact ih i b st' hrun p' N hp
      | message_delta sr u =>
        have hst : st'' = (i, b) := blockStep_nonblock hstep rfl rfl rfl
        subst hst
        exact ih i b st' hrun p' N hp
      | message_stop =>
        have hst : st'' = (i, b) := blockStep_nonblock hstep rfl rfl rfl
        subst hst
        exact ih i b st' hrun p' N hp
      | error_event msg =>
        have hst : st'' = (i, b) := blockStep_nonblock hstep rfl rfl rfl
        subst hst
        exact ih i b st' hrun p' N hp

theorem blockRun_start_unique :
    ∀ (evs : List StreamEvent) (i : Nat) (b : Bool) (st' : Nat × Bool),
    blockRun (i, b) evs = some st' →
    ∀ (p q N : Nat) (K K' : BlockKind),
    evs[p]? = some (StreamEvent.content_block_start N K) →
    evs[q]? = some (StreamEvent.content_block_start N K') → p = q := by
  intro evs
  induction evs with
  | nil =>
    intro i b st' h p q N K K' hp hq
    simp at hp
  | cons e rest ih =>
    intro i b st' h p q N K K' hp hq
    obtain ⟨st'', hstep, hrun⟩ := blockRun_cons_elim h
    cases p with
    | zero =>
      cases q with
      | zero => rfl
      | succ q' =>
        rw [List.getElem?_cons_zero] at hp
        injection hp with hp
        subst hp
        rw [List.getElem?_cons_succ] at hq
        obtain ⟨hb, hj, hst⟩ := blockStep_start hstep
        subst hst hj
        have := blockRun_start_ge rest N true st' hrun q' N K' hq
        simp at this
    | succ p' =>
      cases q with
      | zero =>
        rw [List.getElem?_cons_zero] at hq
        injection hq with hq
        subst hq
        rw [List.getElem?_cons_succ] at hp
        obtain ⟨hb, hj, hst⟩ := blockStep_start hstep
        subst hst hj
        have := blockRun_start_ge rest N true st' hrun p' N K hp
        simp at this
      | succ q' =>
        rw [List.getElem?_cons_succ] at hp hq
        exact congrArg Nat.succ (ih st''.1 st''.2 st' hrun p' q' N K K' hp hq)

theorem blockRun_stop_unique :
    ∀ (evs : List StreamEvent) (i : Nat) (b : Bool) (st' : Nat × Bool),
    blockRun (i, b) evs = some st' →
    ∀ (p q N : Nat),
    evs[p]? = some (StreamEvent.content_block_stop N) →
    evs[q]? = some (StreamEvent.content_block_stop N) → p = q := by
  intro evs
  induction evs with
  | nil =>
    intro i b st' h p q N hp hq
    simp at hp
  | cons e rest ih =>
    intro i b st' h p q N hp hq
    obtain ⟨st'', hstep, hrun⟩ := blockRun_cons_elim h
    cases p with
    | zero =>
      cases q with
      | zero => rfl
      | succ q' =>
        rw [List.getElem?_cons_zero] at hp
        injection hp with hp
        subst hp
        rw [List.getElem?_cons_succ] at hq
        obtain ⟨hb, hj, hst⟩ := blockStep_stop hstep
        subst hst hj
        have := blockRun_stop_ge rest (N + 1) false st' hrun q' N hq
        omega
    | succ p' =>
      cases q with
      | zero =>
        rw [List.getElem?_cons_zero] at hq
        injection hq with hq
        subst hq
        rw [List.getElem?_cons_succ] at hp
        obtain ⟨hb, hj, hst⟩ := blockStep_stop hstep
        subst hst hj
        have := blockRun_stop_ge rest (N + 1) false st' hrun p' N hp
        omega
      | succ q' =>
        rw [List.getElem?_cons_succ] at hp hq
        exact congrArg Nat.succ (ih st''.1 st''.2 st' hrun p' q' N hp hq)

theorem blockRun_delta_has_start :
    ∀ (evs : List StreamEvent) (i : Nat) (b : Bool) (st' : Nat × Bool),
    blockRun (i, b) evs = some st' →
    ∀ (q N : Nat) (D : DeltaKind),
    evs[q]? = some (StreamEvent.content_block_delta N D) →
    (∃ (p : Nat) (K : BlockKind), p < q ∧
        evs[p]? = some (StreamEvent.content_block_start N K))
    ∨ (b = true ∧ N = i) := by
  intro evs
  induction evs with
  | nil =>
    intro i b st' h q N D hq
    simp at hq
  | cons e rest ih =>
    intro i b st' h q N D hq
    obtain ⟨st'', hstep, hrun⟩ := blockRun_cons_elim h
    cases q with
    | zero =>
      rw [List.getElem?_cons_zero] at hq
      injection hq with hq
      subst hq
      obtain ⟨hb, hj, hst⟩ := blockStep_delta hstep
      exact Or.inr ⟨hb, hj⟩
    | succ q' =>
      rw [List.getElem?_cons_succ] at hq
      rcases ih st''.1 st''.2 st' hrun q' N D hq with ⟨p', K, hlt, hp'⟩ | ⟨hb'', hN⟩
      · exact Or.inl ⟨p' + 1, K, by omega, by rw [List.getElem?_cons_succ]; exact hp'⟩
      · cases e with
        | content_block_start j K0 =>
          obtain ⟨hb, hj, hst⟩ := blockStep_start hstep
          subst hst
          subst hj
          simp only at hN
          subst hN
          exact Or.inl ⟨0, K0, by omega, by rw [List.getElem?_cons_zero]⟩
        | content_block_delta j D0 =>
          obtain ⟨hb, hj, hst⟩ := blockStep_delta hstep
          subst hst
          simp only at hN
          exact Or.inr ⟨hb, hN⟩
        | content_block_stop j =>
          obtain ⟨hb, hj, hst⟩ := blockStep_stop hstep
          subst hst
          simp only at hb''
          exact absurd hb'' (by simp)
        | message_start id model =>
          have hst : st'' = (i, b) := blockStep_nonblock hstep rfl rfl rfl
          subst hst
          exact Or.inr ⟨hb'', hN⟩
        | message_delta sr u =>
          have hst : st'' = (i, b) := blockStep_nonblock hstep rfl rfl rfl
          subst hst
          exact Or.inr ⟨hb'', hN⟩
        | message_stop =>
          have hst : st'' = (i, b) := blockStep_nonblock hstep rfl rfl rfl
          subst hst
          exact Or.inr ⟨hb'', hN⟩
        | error_event msg =>
          have hst : st'' = (i, b) := blockStep_nonblock hstep rfl rfl rfl
          subst hst
          exact Or.inr ⟨hb'', hN⟩

theorem blockRun_delta_before_stop :
    ∀ (evs : List StreamEvent) (i : Nat) (b : Bool) (st' : Nat × Bool),
    blockRun (i, b) evs = some st' →
    ∀ (p q N : Nat) (D : DeltaKind),
    evs[p]? = some (StreamEvent.content_block_delta N D) →
    evs[q]? = some (StreamEvent.content_block_stop N) → p < q := by
  intro evs
  induction evs with
  | nil =>
    intro i b st' h p q N D hp hq
    simp at hp
  | cons e rest ih =>
    intro i b st' h p q N D hp hq
    obtain ⟨st'', hstep, hrun⟩ := blockRun_cons_elim h
    cases p with
    | zero =>
      cases q with
      | zero =>
        rw [List.getElem?_cons_zero] at hp hq
        injection hp with hp
        subst hp
        simp at hq
      | succ q' => omega
    | succ p' =>
      cases q with
      | zero =>
        rw [List.getElem?_cons_zero] at hq
        injection hq with hq
        subst hq
        rw [List.getElem?_cons_succ] at hp
        obtain ⟨hb, hj, hst⟩ := blockStep_stop hstep
        subst hst hj
        have := blockRun_delta_ge rest (N + 1) false st' hrun p' N D hp
        omega
      | succ q' =>
        rw [List.getElem?_cons_succ] at hp hq
        have := ih st''.1 st''.2 st' hrun p' q' N D hp hq
        omega

theorem blockRun_start_before_stop :
    ∀ (evs : List StreamEvent) (i : Nat) (b : Bool) (st' : Nat × Bool),
    blockRun (i, b) evs = some st' →
    ∀ (p q N : Nat) (K : BlockKind),
    evs[p]? = some (StreamEvent.content_block_start N K) →
    evs[q]? = some (StreamEvent.content_block_stop N) → p < q := by
  intro evs
  induction evs with
  | nil =>
    intro i b st' h p q N K hp hq
    simp at hp
  | cons e rest ih =>
    intro i b st' h p q N K hp hq
    obtain ⟨st'', hstep, hrun⟩ := blockRun_cons_elim h
    cases p with
    | zero =>
      cases q with
      | zero =>
        rw [List.getElem?_cons_zero] at hp hq
        injection hp with hp
        subst hp
        simp at hq
      | succ q' => omega
    | succ p' =>
      cases q with
      | zero =>
        rw [List.getElem?_cons_zero] at hq
        injection hq with hq
        subst hq
        rw [List.getElem?_cons_succ] at hp
        obtain ⟨hb, hj, hst⟩ := blockStep_stop hstep
        subst hst hj
        have := blockRun_start_ge rest (N + 1) false st' hrun p' N K hp
        simp at this
      | succ q' =>
        rw [List.getElem?_cons_succ] at hp hq
        have := ih st''.1 st''.2 st' hrun p' q' N K hp hq
        omega

theorem blockRun_start_increasing :
    ∀ (evs : List StreamEvent) (i : Nat) (b : Bool) (st' : Nat × Bool),
    blockRun (i, b) evs = some st' →
    ∀ (p q N M : Nat) (K K' : BlockKind),
    evs[p]? = some (StreamEvent.content_block_start N K) →
    evs[q]? = some (StreamEvent.content_block_start M K') → p < q → N < M := by
  intro evs
  induction evs with
  | nil =>
    intro i b st' h p q N M K K' hp hq hlt
    simp at hp
  | cons e rest ih =>
    intro i b st' h p q N M K K' hp hq hlt
    obtain ⟨st'', hstep, hrun⟩ := blockRun_cons_elim h
    cases q with
    | zero => omega
    | succ q' =>
      rw [List.getElem?_cons_succ] at hq
      cases p with
      | zero =>
        rw [List.getElem?_cons_zero] at hp
        injection hp with hp
        subst hp
        obtain ⟨hb, hj, hst⟩ := blockStep_start hstep
        subst hst hj
        have := blockRun_start_ge rest N true st' hrun q' M K' hq
        simp at this
        omega
      | succ p' =>
        rw [List.getElem?_cons_succ] at hp
        exact ih st''.1 st''.2 st' hrun p' q' N M K K' hp hq (by omega)

theorem blockRun_dense :
    ∀ (evs : List StreamEvent) (i : Nat) (b : Bool) (st' : Nat × Bool),
    blockRun (i, b) evs = some st' →
    ∀ (p N : Nat) (K : BlockKind),
    evs[p]? = some (StreamEvent.content_block_start N K) →
    ∀ M : Nat, i + (if b then 1 else 0) ≤ M → M < N →
    ∃ (q : Nat) (K' : BlockKind),
      evs[q]? = some (StreamEvent.content_block_start M K') := by
  intro evs
  induction evs with
  | nil =>
    intro i b st' h p N K hp
    simp at hp
  | cons e rest ih =>
    intro i b st' h p N K hp M hMlo hMhi
    obtain ⟨st'', hstep, hrun⟩ := blockRun_cons_elim h
    cases p with
    | zero =>
      rw [List.getElem?_cons_zero] at hp
      injection hp with hp
      subst hp
      obtain ⟨hb, hj, hst⟩ := blockStep_start hstep
      subst hb hj
      simp at hMlo
      omega
    | succ p' =>
      rw [List.getElem?_cons_succ] at hp
      cases e with
      | content_block_start j K0 =>
        obtain ⟨hb, hj, hst⟩ := blockStep_start hstep
        subst hb hst
        by_cases hM : M = i
        · subst hM
          exact ⟨0, K0, by rw [List.getElem?_cons_zero, hj]⟩
        · simp at hMlo
          obtain ⟨q', K', hq'⟩ := ih i true st' hrun p' N K hp M (by simp; omega) hMhi
          exact ⟨q' + 1, K', by rw [List.getElem?_cons_succ]; exact hq'⟩
      | content_block_delta j D0 =>
        obtain ⟨hb, hj, hst⟩ := blockStep_delta hstep
        subst hb hst
        obtain ⟨q', K', hq'⟩ := ih i true st' hrun p' N K hp M hMlo hMhi
        exact ⟨q' + 1, K', by rw [List.getElem?_cons_succ]; exact hq'⟩
      | content_block_stop j =>
        obtain ⟨hb, hj, hst⟩ := blockStep_stop hstep
        subst hb hst
        simp at hMlo
        obtain ⟨q', K', hq'⟩ := ih (i + 1) false st' hrun p' N K hp M (by simp; omega) hMhi
        exact ⟨q' + 1, K', by rw [List.getElem?_cons_succ]; exact hq'⟩
      | message_start id model =>
        have hst : st'' = (i, b) := blockStep_nonblock hstep rfl rfl rfl
        subst hst
        obtain ⟨q', K', hq'⟩ := ih i b st' hrun p' N K hp M hMlo hMhi
        exact ⟨q' + 1, K', by rw [List.getElem?_cons_succ]; exact hq'⟩
      | message_delta sr u =>
        have hst : st'' = (i, b) := blockStep_nonblock hstep rfl rfl rfl
        subst hst
        obtain ⟨q', K', hq'⟩ := ih i b st' hrun p' N K hp M hMlo hMhi
        exact ⟨q' + 1, K', by rw [List.getElem?_cons_succ]; exact hq'⟩
      | message_stop =>
        have hst : st'' = (i, b) := blockStep_nonblock hstep rfl rfl rfl
        subst hst
        obtain ⟨q', K', hq'⟩ := ih i b st' hrun p' N K hp M hMlo hMhi
        exact ⟨q' + 1, K', by rw [List.getElem?_cons_succ]; exact hq'⟩
      | error_event msg =>
        have hst : st'' = (i, b) := blockStep_nonblock hstep rfl rfl rfl
        subst hst
        obtain ⟨q', K', hq'⟩ := ih i b st' hrun p' N K hp M hMlo hMhi
        exact ⟨q' + 1, K', by rw [List.getElem?_cons_succ]; exact hq'⟩

theorem blockRun_counts :
    ∀ (evs : List StreamEvent) (i : Nat) (b : Bool) (st' : Nat × Bool),
    blockRun (i, b) evs = some st' →
    ∀ k : Nat,
    (evs.take k).countP isStartEv + (if b then 1 else 0)
        ≤ (evs.take k).countP isStopEv + 1
    ∧ (evs.take k).countP isStopEv
        ≤ (evs.take k).countP isStartEv + (if b then 1 else 0) := by
  intro evs
  induction evs with
  | nil =>
    intro i b st' h k
    cases b <;> simp
  | cons e rest ih =>
    intro i b st' h k
    obtain ⟨st'', hstep, hrun⟩ := blockRun_cons_elim h
    cases k with
    | zero => cases b <;> simp
    | succ k' =>
      rw [List.take_succ_cons]
      cases e with
      | content_block_start j K0 =>
        obtain ⟨hb, hj, hst⟩ := blockStep_start hstep
        subst hb hst
        have hih := ih i true st' hrun k'
        simp only [List.countP_cons, isStartEv, isStopEv] at hih ⊢
        simp at hih ⊢
        omega
      | content_block_delta j D0 =>
        obtain ⟨hb, hj, hst⟩ := blockStep_delta hstep
        subst hb hst
        have hih := ih i true st' hrun k'
        simp only [List.countP_cons, isStartEv, isStopEv] at hih ⊢
        simp at hih ⊢
        omega
      | content_block_stop j =>
        obtain ⟨hb, hj, hst⟩ := blockStep_stop hstep
        subst hb hst
        have hih := ih (i + 1) false st' hrun k'
        simp only [List.countP_cons, isStartEv, isStopEv] at hih ⊢
        simp at hih ⊢
        omega
      | message_start id model =>
        have hst : st'' = (i, b) := blockStep_nonblock hstep rfl rfl rfl
        subst hst
        have hih := ih i b st' hrun k'
        cases b <;> simp only [List.countP_cons, isStartEv, isStopEv] at hih ⊢ <;>
          simp at hih ⊢ <;> omega
      | message_delta sr u =>
        have hst : st'' = (i, b) := blockStep_nonblock hstep rfl rfl rfl
        subst hst
        have hih := ih i b st' hrun k'
        cases b <;> simp only [List.countP_cons, isStartEv, isStopEv] at hih ⊢ <;>
          simp at hih ⊢ <;> omega
      | message_stop =>
        have hst : st'' = (i, b) := blockStep_nonblock hstep rfl rfl rfl
        subst hst
        have hih := ih i b st' hrun k'
        cases b <;> simp only [List.countP_cons, isStartEv, isStopEv] at hih ⊢ <;>
          simp at hih ⊢ <;> omega
      | error_event msg =>
        have hst : st'' = (i, b) := blockStep_nonblock hstep rfl rfl rfl
        subst hst
        have hih := ih i b st' hrun k'
        cases b <;> simp only [List.countP_cons, isStartEv, isStopEv] at hih ⊢ <;>
          simp at hih ⊢ <;> omega

theorem blockRun_ClaimC2 (evs : List StreamEvent) (st' : Nat × Bool)
    (h : blockRun (0, false) evs = some st') : ClaimC2 evs := by
  refine ⟨?_, ?_, ?_, ?_, ?_, ?_, ?_, ?_⟩
  · exact blockRun_start_unique evs 0 false st' h
  · exact blockRun_stop_unique evs 0 false st' h
  · intro q N D hq
    rcases blockRun_delta_has_start evs 0 false st' h q N D hq with hex | ⟨hb, _⟩
    · exact hex
    · exact absurd hb (by simp)
  · exact blockRun_delta_before_stop evs 0 false st' h
  · exact blockRun_start_before_stop evs 0 false st' h
  · exact blockRun_start_increasing evs 0 false st' h
  · intro p N K hp M hM
    exact blockRun_dense evs 0 false st' h p N K hp M (by simp) hM
  · intro k
    have := blockRun_counts evs 0 false st' h k
    simpa using this

/-- Automaton state corresponding to a reassembler state: the current
index and whether a block is open. -/
def autoSt (s : StreamState) : Nat × Bool :=
  (s.content_index, s.current_block_type.isSome)

theorem sim_processMessageStart (s : StreamState) :
    blockRun (autoSt s) (processMessageStart s).1
      = some (autoSt (processMessageStart s).2) := by
  by_cases h : s.has_sent_message_start <;>
    simp [processMessageStart, h, blockRun, blockStep, autoSt]

theorem processMessageStart_fields (s : StreamState) :
    (processMessageStart s).2.current_block_type = s.current_block_type
    ∧ (processMessageStart s).2.content_index = s.content_index := by
  by_cases h : s.has_sent_message_start <;> simp [processMessageStart, h]

theorem sim_processReasoning (s : StreamState) (r : Option String) :
    blockRun (autoSt s) (processReasoning s r).1
      = some (autoSt (processReasoning s r).2) := by
  match r with
  | none => simp [processReasoning, blockRun]
  | some reasoning =>
    by_cases h : s.current_block_type.isNone
    · have hb : s.current_block_type.isSome = false := by
        rcases hc : s.current_block_type <;> simp [hc] at h ⊢
      simp [processReasoning, h, blockRun, blockStep, autoSt, hb]
    · have hb : s.current_block_type.isSome = true := by
        rcases hc : s.current_block_type <;> simp [hc] at h ⊢
      simp [processReasoning, h, blockRun, blockStep, autoSt, hb]

theorem processReasoning_mono (s : StreamState) (r : Option String)
    (h : s.current_block_type.isSome = true) :
    (processReasoning s r).2.current_block_type.isSome = true := by
  match r with
  | none => simpa [processReasoning] using h
  | some reasoning =>
    by_cases hn : s.current_block_type.isNone <;> simp [processReasoning, hn, h]

theorem processReasoning_index (s : StreamState) (r : Option String) :
    (processReasoning s r).2.content_index = s.content_index := by
  match r with
  | none => rfl
  | some reasoning =>
    by_cases hn : s.current_block_type.isNone <;> simp [processReasoning, hn]

theorem sim_processContent (s : StreamState) (c : Option String) :
    blockRun (autoSt s) (processContent s c).1
      = some (autoSt (processContent s c).2) := by
  match c with
  | none => simp [processContent, blockRun]
  | some content =>
    by_cases he : content.isEmpty
    · simp [processContent, he, blockRun]
    · by_cases ht : s.current_block_type == some "text"
      · have hb : s.current_block_type.isSome = true := by
          rcases hc : s.current_block_type <;> simp [hc] at ht ⊢
        simp [processContent, he, ht, blockRun, blockStep, autoSt, hb]
      · by_cases hs : s.current_block_type.isSome
        · simp [processContent, he, ht, hs, blockRun, blockStep, autoSt]
        · simp [processContent, he, ht, hs, blockRun, blockStep, autoSt]

theorem processContent_mono (s : StreamState) (c : Option String)
    (h : s.current_block_type.isSome = true) :
    (processContent s c).2.current_block_type.isSome = true := by
  match c with
  | none => simpa [processContent] using h
  | some content =>
    by_cases he : content.isEmpty
    · simpa [processContent, he] using h
    · by_cases ht : s.current_block_type == some "text"
      · simpa [processContent, he, ht] using h
      · simp [processContent, he, ht, h]

/-- Well-formedness class of a single tool-call fragment, with `seen`
recording whether a starter fragment occurred earlier: a fragment with an
id must also carry a function name in the same fragment (a starter); a
fragment without id must not carry a name, and may carry arguments only
after a starter (a continuation).  This matches how OpenAI-compatible
upstreams fragment tool calls. -/
def fragOKb (seen : Bool) (tc : ToolCallDelta) : Bool :=
  match tc.id, tc.function with
  | some _, some fn => fn.name.isSome
  | some _, none => false
  | none, some fn =>
      if fn.name.isSome then false
      else if fn.arguments.isSome then seen
      else true
  | none, none => true

/-- Updated `seen` flag after a fragment. -/
def fragSeen (seen : Bool) (tc : ToolCallDelta) : Bool := seen || tc.id.isSome

theorem sim_processToolCallFragment (s : StreamState) (tc : ToolCallDelta)
    (seen : Bool) (hok : fragOKb seen tc = true)
    (hseen : seen = true → s.current_block_type.isSome = true) :
    blockRun (autoSt s) (processToolCallFragment s tc).1
        = some (autoSt (processToolCallFragment s tc).2)
    ∧ (fragSeen seen tc = true →
        (processToolCallFragment s tc).2.current_block_type.isSome = true)
    ∧ (s.current_block_type.isSome = true →
        (processToolCallFragment s tc).2.current_block_type.isSome = true) := by
  obtain ⟨tid, tfn⟩ := tc
  match tid, tfn with
  | some id, some fn =>
    match hn : fn.name with
    | some name =>
      by_cases hs : s.current_block_type.isSome
      · match ha : fn.arguments with
        | some args =>
          refine ⟨?_, fun _ => by simp [processToolCallFragment, hn, ha], ?_⟩
          · simp [processToolCallFragment, hn, ha, hs, blockRun, blockStep, autoSt]
          · intro _
            simp [processToolCallFragment, hn, ha]
        | none =>
          refine ⟨?_, fun _ => by simp [processToolCallFragment, hn, ha], ?_⟩
          · simp [processToolCallFragment, hn, ha, hs, blockRun, blockStep, autoSt]
          · intro _
            simp [processToolCallFragment, hn, ha]
      · match ha : fn.arguments with
        | some args =>
          refine ⟨?_, fun _ => by simp [processToolCallFragment, hn, ha], ?_⟩
          · simp [processToolCallFragment, hn, ha, hs, blockRun, blockStep, autoSt]
          · intro _
            simp [processToolCallFragment, hn, ha]
        | none =>
          refine ⟨?_, fun _ => by simp [processToolCallFragment, hn, ha], ?_⟩
          · simp [processToolCallFragment, hn, ha, hs, blockRun, blockStep, autoSt]
          · intro _
            simp [processToolCallFragment, hn, ha]
    | none => simp [fragOKb, hn] at hok
  | some id, none => simp [fragOKb] at hok
  | none, some fn =>
    match hn : fn.name with
    | some name => simp [fragOKb, hn] at hok
    | none =>
      match ha : fn.arguments with
      | some args =>
        have hsn : seen = true := by simpa [fragOKb, hn, ha] using hok
        have hb := hseen hsn
        refine ⟨?_, fun _ => by simpa [processToolCallFragment, hn, ha] using hb, ?_⟩
        · simp [processToolCallFragment, hn, ha, blockRun, blockStep, autoSt, hb]
        · intro h
          simpa [processToolCallFragment, hn, ha] using h
      | none =>
        refine ⟨?_, ?_, ?_⟩
        · simp [processToolCallFragment, hn, ha, blockRun]
        · intro hsn
          have : seen = true := by simpa [fragSeen] using hsn
          simpa [processToolCallFragment, hn, ha] using hseen this
        · intro h
          simpa [processToolCallFragment, hn, ha] using h
  | none, none =>
    refine ⟨?_, ?_, ?_⟩
    · simp [processToolCallFragment, blockRun]
    · intro hsn
      have : seen = true := by simpa [fragSeen] using hsn
      simpa [processToolCallFragment] using hseen this
    · intro h
      simpa [processToolCallFragment] using h

/-- Recursion form of the tool-call fragment loop. -/
def runFrags (s : StreamState) : List ToolCallDelta → List StreamEvent × StreamState
  | [] => ([], s)
  | tc :: rest =>
    let (evs, s1) := processToolCallFragment s tc
    let (evs2, s2) := runFrags s1 rest
    (evs ++ evs2, s2)

theorem processToolCalls_foldl (tcs : List ToolCallDelta) :
    ∀ (s : StreamState) (evs0 : List StreamEvent),
    tcs.foldl (fun acc tc =>
      let (evs, s') := processToolCallFragment acc.2 tc
      (acc.1 ++ evs, s')) (evs0, s)
    = (evs0 ++ (runFrags s tcs).1, (runFrags s tcs).2) := by
  induction tcs with
  | nil =>
    intro s evs0
    simp [runFrags]
  | cons tc rest ih =>
    intro s evs0
    simp only [List.foldl, runFrags]
    rw [ih (processToolCallFragment s tc).2 (evs0 ++ (processToolCallFragment s tc).1)]
    simp

theorem processToolCalls_eq_runFrags (s : StreamState) (tcs : List ToolCallDelta) :
    processToolCalls s (some tcs) = runFrags s tcs := by
  simp [processToolCalls, processToolCalls_foldl]

/-- Well-formedness of a fragment list, threading the `seen` flag. -/
def fragsOKb (seen : Bool) : List ToolCallDelta → Bool
  | [] => true
  | tc :: rest => fragOKb seen tc && fragsOKb (fragSeen seen tc) rest

/-- The `seen` flag after a fragment list. -/
def fragsSeen (seen : Bool) : List ToolCallDelta → Bool
  | [] => seen
  | tc :: rest => fragsSeen (fragSeen seen tc) rest

theorem sim_runFrags (tcs : List ToolCallDelta) :
    ∀ (s : StreamState) (seen : Bool), fragsOKb seen tcs = true →
    (seen = true → s.current_block_type.isSome = true) →
    blockRun (autoSt s) (runFrags s tcs).1 = some (autoSt (runFrags s tcs).2)
    ∧ (fragsSeen seen tcs = true →
        (runFrags s tcs).2.current_block_type.isSome = true)
    ∧ (s.current_block_type.isSome = true →
        (runFrags s tcs).2.current_block_type.isSome = true) := by
  induction tcs with
  | nil =>
    intro s seen hok hseen
    exact ⟨by simp [runFrags, blockRun], fun h => hseen (by simpa [fragsSeen] using h),
      fun h => by simpa [runFrags] using h⟩
  | cons tc rest ih =>
    intro s seen hok hseen
    simp only [fragsOKb, Bool.and_eq_true] at hok
    obtain ⟨hok1, hok2⟩ := hok
    obtain ⟨hsim1, hseen1, hmono1⟩ := sim_processToolCallFragment s tc seen hok1 hseen
    obtain ⟨hsim2, hseen2, hmono2⟩ :=
      ih (processToolCallFragment s tc).2 (fragSeen seen tc) hok2 hseen1
    refine ⟨?_, ?_, ?_⟩
    · simp only [runFrags, blockRun_append, hsim1, Option.bind_some]
      exact hsim2
    · intro h
      simp only [fragsSeen] at h
      simpa [runFrags] using hseen2 h
    · intro h
      simpa [runFrags] using hmono2 (hmono1 h)

theorem sim_processToolCalls (s : StreamState) (o : Option (List ToolCallDelta))
    (seen : Bool) (hok : fragsOKb seen (o.getD []) = true)
    (hseen : seen = true → s.current_block_type.isSome = true) :
    blockRun (autoSt s) (processToolCalls s o).1
        = some (autoSt (processToolCalls s o).2)
    ∧ (fragsSeen seen (o.getD []) = true →
        (processToolCalls s o).2.current_block_type.isSome = true)
    ∧ (s.current_block_type.isSome = true →
        (processToolCalls s o).2.current_block_type.isSome = true) := by
  match o with
  | none =>
    exact ⟨by simp [processToolCalls, blockRun],
      fun h => hseen (by simpa [fragsSeen] using h),
      fun h => by simpa [processToolCalls] using h⟩
  | some tcs =>
    rw [processToolCalls_eq_runFrags]
    exact sim_runFrags tcs s seen (by simpa using hok) hseen

theorem sim_processFinish (s : StreamState) (u : Option StreamUsage)
    (f : Option String) :
    ∃ a', blockRun (autoSt s) (processFinish s u f).1 = some a'
      ∧ (f = none → a' = autoSt s)
      ∧ (processFinish s u f).2 = s := by
  match f with
  | none => exact ⟨autoSt s, by simp [processFinish, blockRun], fun _ => rfl, rfl⟩
  | some fr =>
    by_cases hs : s.current_block_type.isSome
    · refine ⟨(s.content_index + 1, false), ?_, by simp, rfl⟩
      simp [processFinish, hs, blockRun, blockStep, autoSt]
    · refine ⟨(s.content_index, false), ?_, by simp, rfl⟩
      simp [processFinish, hs, blockRun, blockStep, autoSt]

/-- Tool-call fragments carried by the first choice of a chunk. -/
def chunkFrags (c : StreamChunk) : List ToolCallDelta :=
  match c.choices.head? with
  | some ch => ch.delta.tool_calls.getD []
  | none => []

/-- Whether the first choice of a chunk carries a finish reason. -/
def chunkFinish (c : StreamChunk) : Bool :=
  match c.choices.head? with
  | some ch => ch.finish_reason.isSome
  | none => false

theorem sim_processChunk (s : StreamState) (c : StreamChunk) (seen : Bool)
    (hok : fragsOKb seen (chunkFrags c) = true)
    (hseen : seen = true → s.current_block_type.isSome = true) :
    ∃ a', blockRun (autoSt s) (processChunk s c).1 = some a'
      ∧ (chunkFinish c = false →
          a' = autoSt (processChunk s c).2
          ∧ (fragsSeen seen (chunkFrags c) = true →
              (processChunk s c).2.current_block_type.isSome = true)) := by
  have hauto0 : autoSt (adminUpdate s c) = autoSt s := rfl
  have hblock0 : (adminUpdate s c).current_block_type = s.current_block_type := rfl
  rcases hch : c.choices.head? with _ | choice
  · refine ⟨autoSt s, ?_, fun _ => ⟨?_, ?_⟩⟩
    · simp [processChunk, hch, blockRun]
    · simp [processChunk, hch, autoSt, adminUpdate]
    · intro hsn
      have hsn' : seen = true := by
        simpa [chunkFrags, hch, fragsSeen] using hsn
      have := hseen hsn'
      simp only [processChunk, hch]
      simpa [adminUpdate] using this
  · have hfr : chunkFrags c = choice.delta.tool_calls.getD [] := by
      simp [chunkFrags, hch]
    rw [hfr] at hok
    have hpc : processChunk s c
        = ((processMessageStart (adminUpdate s c)).1
            ++ ((processReasoning (processMessageStart (adminUpdate s c)).2
                  choice.delta.reasoning).1
            ++ ((processContent (processReasoning
                    (processMessageStart (adminUpdate s c)).2
                    choice.delta.reasoning).2 choice.delta.content).1
            ++ ((processToolCalls (processContent (processReasoning
                    (processMessageStart (adminUpdate s c)).2
                    choice.delta.reasoning).2 choice.delta.content).2
                  choice.delta.tool_calls).1
            ++ (processFinish (processToolCalls (processContent (processReasoning
                    (processMessageStart (adminUpdate s c)).2
                    choice.delta.reasoning).2 choice.delta.content).2
                  choice.delta.tool_calls).2 c.usage choice.finish_reason).1))),
           (processFinish (processToolCalls (processContent (processReasoning
                    (processMessageStart (adminUpdate s c)).2
                    choice.delta.reasoning).2 choice.delta.content).2
                  choice.delta.tool_calls).2 c.usage choice.finish_reason).2) := by
      simp [processChunk, hch]
    have hseen0 : seen = true → (adminUpdate s c).current_block_type.isSome = true := by
      rw [hblock0]; exact hseen
    have h1 := sim_processMessageStart (adminUpdate s c)
    have hf1 := processMessageStart_fields (adminUpdate s c)
    have hseen1 : seen = true →
        (processMessageStart (adminUpdate s c)).2.current_block_type.isSome = true := by
      intro hsn
      rw [hf1.1, hblock0]
      exact hseen hsn
    have h2 := sim_processReasoning (processMessageStart (adminUpdate s c)).2
      choice.delta.reasoning
    have hseen2 : seen = true →
        (processReasoning (processMessageStart (adminUpdate s c)).2
          choice.delta.reasoning).2.current_block_type.isSome = true :=
      fun hsn => processReasoning_mono _ _ (hseen1 hsn)
    have h3 := sim_processContent (processReasoning
      (processMessageStart (adminUpdate s c)).2 choice.delta.reasoning).2
      choice.delta.content
    have hseen3 : seen = true →
        (processContent (processReasoning (processMessageStart (adminUpdate s c)).2
          choice.delta.reasoning).2 choice.delta.content).2.current_block_type.isSome
          = true :=
      fun hsn => processContent_mono _ _ (hseen2 hsn)
    obtain ⟨h4, h4seen, h4mono⟩ := sim_processToolCalls (processContent (processReasoning
      (processMessageStart (adminUpdate s c)).2 choice.delta.reasoning).2
      choice.delta.content).2 choice.delta.tool_calls seen hok hseen3
    obtain ⟨a5, h5, h5none, h5state⟩ := sim_processFinish (processToolCalls
      (processContent (processReasoning (processMessageStart (adminUpdate s c)).2
        choice.delta.reasoning).2 choice.delta.content).2
      choice.delta.tool_calls).2 c.usage choice.finish_reason
    refine ⟨a5, ?_, ?_⟩
    · rw [hpc]
      dsimp only
      rw [blockRun_append]
      rw [show blockRun (autoSt s) (processMessageStart (adminUpdate s c)).1
            = some (autoSt (processMessageStart (adminUpdate s c)).2) from h1]
      simp only [Option.some_bind]
      rw [blockRun_append, h2]
      simp only [Option.some_bind]
      rw [blockRun_append, h3]
      simp only [Option.some_bind]
      rw [blockRun_append, h4]
      simp only [Option.some_bind]
      exact h5
    · intro hfin
      have hfnone : choice.finish_reason = none := by
        have : choice.finish_reason.isSome = false := by
          simpa [chunkFinish, hch] using hfin
        rcases hcf : choice.finish_reason <;> simp [hcf] at this ⊢
      constructor
      · rw [hpc]
        dsimp only
        rw [h5none hfnone, h5state]
      · intro hsn
        rw [hfr] at hsn
        rw [hpc]
        dsimp only
        rw [h5state]
        exact h4seen hsn

theorem blockRun_cons_some {st st' : Nat × Bool} {e : StreamEvent}
    {evs : List StreamEvent} (hstep : blockStep st e = some st') :
    blockRun st (e :: evs) = blockRun st' evs := by
  simp [blockRun, hstep]

theorem processChunk_no_choice (s : StreamState) (c : StreamChunk)
    (h : c.choices.isEmpty = true) :
    processChunk s c = ([], adminUpdate s c) := by
  have hh : c.choices.head? = none := by
    cases hc : c.choices
    · rfl
    · simp [hc] at h
  simp [processChunk, hh]

theorem chunkFrags_no_choice (c : StreamChunk) (h : c.choices.isEmpty = true) :
    chunkFrags c = [] := by
  have hh : c.choices.head? = none := by
    cases hc : c.choices
    · rfl
    · simp [hc] at h
  simp [chunkFrags, hh]

theorem chunkFinish_no_choice (c : StreamChunk) (h : c.choices.isEmpty = true) :
    chunkFinish c = false := by
  have hh : c.choices.head? = none := by
    cases hc : c.choices
    · rfl
    · simp [hc] at h
  simp [chunkFinish, hh]

/-- Well-formedness of a payload sequence, threading the starter flag and
the finished flag: tool-call fragments must be well formed, and once a
chunk carried a finish reason no later chunk may carry a choice. -/
def payloadsWF : Bool → Bool → List Payload → Bool
  | _, _, [] => true
  | seen, fin, Payload.done :: rest => payloadsWF seen fin rest
  | seen, fin, Payload.malformed :: rest => payloadsWF seen fin rest
  | seen, fin, Payload.chunk c :: rest =>
      (!(fin && !c.choices.isEmpty))
      && fragsOKb seen (chunkFrags c)
      && payloadsWF (fragsSeen seen (chunkFrags c)) (fin || chunkFinish c) rest

/-- Starter flag after a payload sequence. -/
def payloadsSeen : Bool → List Payload → Bool
  | seen, [] => seen
  | seen, Payload.done :: rest => payloadsSeen seen rest
  | seen, Payload.malformed :: rest => payloadsSeen seen rest
  | seen, Payload.chunk c :: rest => payloadsSeen (fragsSeen seen (chunkFrags c)) rest

/-- Finished flag after a payload sequence. -/
def payloadsFin : Bool → List Payload → Bool
  | fin, [] => fin
  | fin, Payload.done :: rest => payloadsFin fin rest
  | fin, Payload.malformed :: rest => payloadsFin fin rest
  | fin, Payload.chunk c :: rest => payloadsFin (fin || chunkFinish c) rest

theorem payloadsFin_true (ps : List Payload) : payloadsFin true ps = true := by
  induction ps with
  | nil => rfl
  | cons p rest ih =>
    match p with
    | Payload.done => simpa [payloadsFin] using ih
    | Payload.malformed => simpa [payloadsFin] using ih
    | Payload.chunk c => simpa [payloadsFin] using ih

theorem sim_runPayloads (ps : List Payload) :
    ∀ (s : StreamState) (seen fin : Bool) (a : Nat × Bool),
    payloadsWF seen fin ps = true →
    (fin = false → a = autoSt s ∧ (seen = true → s.current_block_type.isSome = true)) →
    ∃ a', blockRun a (runPayloads s ps).1 = some a'
      ∧ (payloadsFin fin ps = false →
          a' = autoSt (runPayloads s ps).2
          ∧ (payloadsSeen seen ps = true →
              (runPayloads s ps).2.current_block_type.isSome = true)) := by
  induction ps with
  | nil =>
    intro s seen fin a hwf hinv
    refine ⟨a, by simp [runPayloads, blockRun], ?_⟩
    intro hf
    obtain ⟨ha, hs⟩ := hinv (by simpa [payloadsFin] using hf)
    exact ⟨by simpa [runPayloads] using ha,
      fun h => by simpa [runPayloads] using hs (by simpa [payloadsSeen] using h)⟩
  | cons p rest ih =>
    intro s seen fin a hwf hinv
    match p with
    | Payload.done =>
      have hwf' : payloadsWF seen fin rest = true := by simpa [payloadsWF] using hwf
      obtain ⟨a', hrun, hrest⟩ := ih s seen fin a hwf' hinv
      have hstep : blockStep a StreamEvent.message_stop = some a := by
        obtain ⟨i, b⟩ := a
        cases b <;> rfl
      have hevs : runPayloads s (Payload.done :: rest)
          = (StreamEvent.message_stop :: (runPayloads s rest).1,
             (runPayloads s rest).2) := by
        simp [runPayloads, processPayload]
      refine ⟨a', ?_, ?_⟩
      · rw [hevs]
        dsimp only
        rw [blockRun_cons_some hstep]
        exact hrun
      · intro hf
        obtain ⟨ha, hs⟩ := hrest (by simpa [payloadsFin] using hf)
        rw [hevs]
        exact ⟨ha, fun h => hs (by simpa [payloadsSeen] using h)⟩
    | Payload.malformed =>
      have hwf' : payloadsWF seen fin rest = true := by simpa [payloadsWF] using hwf
      obtain ⟨a', hrun, hrest⟩ := ih s seen fin a hwf' hinv
      have hevs : runPayloads s (Payload.malformed :: rest)
          = ((runPayloads s rest).1, (runPayloads s rest).2) := by
        simp [runPayloads, processPayload]
      refine ⟨a', ?_, ?_⟩
      · rw [hevs]
        exact hrun
      · intro hf
        obtain ⟨ha, hs⟩ := hrest (by simpa [payloadsFin] using hf)
        rw [hevs]
        exact ⟨ha, fun h => hs (by simpa [payloadsSeen] using h)⟩
    | Payload.chunk c =>
      simp only [payloadsWF, Bool.and_eq_true] at hwf
      obtain ⟨⟨hnf, hok⟩, hwfrest⟩ := hwf
      have hevs : runPayloads s (Payload.chunk c :: rest)
          = ((processChunk s c).1 ++ (runPayloads (processChunk s c).2 rest).1,
             (runPayloads (processChunk s c).2 rest).2) := by
        simp [runPayloads, processPayload]
      cases hfin : fin with
      | true =>
        subst hfin
        have hempty : c.choices.isEmpty = true := by
          rcases he : c.choices.isEmpty
          · simp [he] at hnf
          · rfl
        have hpc := processChunk_no_choice s c hempty
        have hfr := chunkFrags_no_choice c hempty
        have hcf := chunkFinish_no_choice c hempty
        have hwfrest' : payloadsWF seen true rest = true := by
          simpa [hfr, hcf, fragsSeen] using hwfrest
        obtain ⟨a', hrun, _⟩ := ih (adminUpdate s c) seen true a hwfrest'
          (fun h => by simp at h)
        refine ⟨a', ?_, ?_⟩
        · rw [hevs]
          dsimp only
          rw [hpc]
          dsimp only
          rw [List.nil_append]
          exact hrun
        · intro hf
          rw [payloadsFin, hcf, Bool.or_false, payloadsFin_true] at hf
          exact absurd hf (by simp)
      | false =>
        subst hfin
        obtain ⟨ha, hsinv⟩ := hinv rfl
        obtain ⟨a'', hrun1, hfin1⟩ := sim_processChunk s c seen hok hsinv
        cases hcf : chunkFinish c with
        | true =>
          obtain ⟨a', hrun2, _⟩ := ih (processChunk s c).2
            (fragsSeen seen (chunkFrags c)) true a''
            (by simpa [hcf] using hwfrest) (fun h => by simp at h)
          refine ⟨a', ?_, ?_⟩
          · rw [hevs]
            dsimp only
            rw [blockRun_append, ha, hrun1]
            simpa using hrun2
          · intro hf
            rw [payloadsFin, hcf, Bool.or_true, payloadsFin_true] at hf
            exact absurd hf (by simp)
        | false =>
          obtain ⟨haeq, hseen'⟩ := hfin1 hcf
          obtain ⟨a', hrun2, hrest⟩ := ih (processChunk s c).2
            (fragsSeen seen (chunkFrags c)) false a''
            (by simpa [hcf] using hwfrest) (fun _ => ⟨haeq, hseen'⟩)
          refine ⟨a', ?_, ?_⟩
          · rw [hevs]
            dsimp only
            rw [blockRun_append, ha, hrun1]
            simpa using hrun2
          · intro hf
            have hf' : payloadsFin false rest = false := by
              simpa [payloadsFin, hcf] using hf
            obtain ⟨ha2, hs2⟩ := hrest hf'
            rw [hevs]
            exact ⟨ha2, fun h => hs2 (by simpa [payloadsSeen] using h)⟩

/-- Well-formedness of an upstream item sequence: the payloads of each
`Ok` item are well formed under the threaded flags; nothing after a read
error is constrained, since processing stops there. -/
def itemsWF : Bool → Bool → List StreamItem → Bool
  | _, _, [] => true
  | seen, fin, StreamItem.bytes ps :: rest =>
      payloadsWF seen fin ps
      && itemsWF (payloadsSeen seen ps) (payloadsFin fin ps) rest
  | _, _, StreamItem.readError _ :: _ => true

theorem sim_runItems (items : List StreamItem) :
    ∀ (s : StreamState) (seen fin : Bool) (a : Nat × Bool),
    itemsWF seen fin items = true →
    (fin = false → a = autoSt s ∧ (seen = true → s.current_block_type.isSome = true)) →
    ∃ a', blockRun a (runItems s items) = some a' := by
  induction items with
  | nil =>
    intro s seen fin a hwf hinv
    exact ⟨a, by simp [runItems, blockRun]⟩
  | cons it rest ih =>
    intro s seen fin a hwf hinv
    match it with
    | StreamItem.bytes ps =>
      simp only [itemsWF, Bool.and_eq_true] at hwf
      obtain ⟨hwf1, hwf2⟩ := hwf
      obtain ⟨a'', hrun1, htrans⟩ := sim_runPayloads ps s seen fin a hwf1 hinv
      obtain ⟨a', hrun2⟩ := ih (runPayloads s ps).2 (payloadsSeen seen ps)
        (payloadsFin fin ps) a'' hwf2 htrans
      refine ⟨a', ?_⟩
      have hevs : runItems s (StreamItem.bytes ps :: rest)
          = (runPayloads s ps).1 ++ runItems (runPayloads s ps).2 rest := by
        simp [runItems]
      rw [hevs, blockRun_append, hrun1]
      simpa using hrun2
    | StreamItem.readError e =>
      have hstep : blockStep a (StreamEvent.error_event ("Stream error: " ++ e))
          = some a := by
        obtain ⟨i, b⟩ := a
        cases b <;> rfl
      exact ⟨a, by rw [runItems, blockRun_cons_some hstep]; rfl⟩

/-- C2 (amended): for every input stream whose chunk payloads are well
formed — every tool-call fragment either carries id and name together (a
starter) or carries only an argument fragment preceded by some starter,
and no chunk carries a choice after a finish reason was seen — the emitted
event sequence satisfies the full ordering invariant `ClaimC2`: per-index
start/delta/stop ordering, densely increasing never-reused indices, and at
most one open block at any instant. -/
theorem claim_C2_ordering_invariant (input : List StreamItem)
    (hwf : itemsWF false false input = true) :
    ClaimC2 (create_sse_stream input) := by
  obtain ⟨a', h⟩ := sim_runItems input initialState false false (0, false) hwf
    (fun _ => ⟨rfl, fun hc => by simp at hc⟩)
  exact blockRun_ClaimC2 _ _ h

/-- Chunk whose only tool-call fragment carries an argument fragment with
no id and no name: the code emits an `input_json_delta` at index 0 without
any `content_block_start`. -/
def c2BadFrag : ToolCallDelta :=
  { id := none, function := some { name := none, arguments := some "x" } }

/-- Chunk carrying only the ill-formed fragment `c2BadFrag`. -/
def c2BadChunk : StreamChunk :=
  { id := "i", model := "m",
    choices := [{ delta := { reasoning := none, content := none,
                             tool_calls := some [c2BadFrag] },
                  finish_reason := none }],
    usage := none }

theorem claim_C2_counterexample :
    ¬ (∀ input : List StreamItem, ClaimC2 (create_sse_stream input)) := by
  intro h
  have h3 := (h [StreamItem.bytes [Payload.chunk c2BadChunk]]).2.2.1
  have hev : create_sse_stream [StreamItem.bytes [Payload.chunk c2BadChunk]]
      = [StreamEvent.message_start "i" "m",
         StreamEvent.content_block_delta 0 (DeltaKind.input_json_delta "x")] := rfl
  rw [hev] at h3
  obtain ⟨p, K, hlt, hp⟩ := h3 1 0 (DeltaKind.input_json_delta "x") rfl
  have hp0 : p = 0 := by omega
  subst hp0
  simp at hp

theorem claim_C2_ordering_invariant_witness :
    itemsWF false false
      [StreamItem.bytes [Payload.chunk (c1Chunk1 "i" "m")],
       StreamItem.bytes [Payload.chunk (c1Chunk2 "i" "m")],
       StreamItem.bytes [Payload.done]] = true
    ∧ ClaimC2 (create_sse_stream
      [StreamItem.bytes [Payload.chunk (c1Chunk1 "i" "m")],
       StreamItem.bytes [Payload.chunk (c1Chunk2 "i" "m")],
       StreamItem.bytes [Payload.done]]) :=
  ⟨by decide,
   claim_C2_ordering_invariant
     [StreamItem.bytes [Payload.chunk (c1Chunk1 "i" "m")],
      StreamItem.bytes [Payload.chunk (c1Chunk2 "i" "m")],
      StreamItem.bytes [Payload.done]] (by decide)⟩

end AnthropicProxy
